import Mathlib

/-!
Verification of the minimax strategy core (`src/strategy.py`, `src/tree.py`) and the
Stonehenge game (`src/stonehenge.py`).

The strategy module is generic over an externally supplied game object: we embed the
capability set it consumes as a structure `Minimax.GameCtx` (state type `S`, move type `M`).
The Python game object carries a mutable `current_state` focus that the evaluators save and
restore around terminal checks; we make that focus an explicit value of type `S` threaded
through every function, so a call takes the focus before the call and returns the focus
after the call.  Python exceptions (`max` of an empty sequence raises `ValueError`,
negating a `None` score raises `TypeError`) are modelled with `Except`; non-termination is
modelled with a fuel parameter whose exhaustion yields the distinguished error
`EvalErr.fuelOut` (a run that returns `fuelOut` for every fuel never terminates).
-/

instance {ε α : Type} [DecidableEq ε] [DecidableEq α] : DecidableEq (Except ε α) :=
  fun a b =>
    match a, b with
    | .ok x, .ok y =>
      if h : x = y then .isTrue (by rw [h]) else
        .isFalse (fun hh => h (by injection hh))
    | .error x, .error y =>
      if h : x = y then .isTrue (by rw [h]) else
        .isFalse (fun hh => h (by injection hh))
    | .ok _, .error _ => .isFalse (fun hh => Except.noConfusion hh)
    | .error _, .ok _ => .isFalse (fun hh => Except.noConfusion hh)


namespace Minimax


/-- The capability set of the external game object consumed by `strategy.py`:
`is_over` and `is_winner` are the context queries (`is_winner`'s first argument is the
state installed as the context's `current_state` focus at the moment of the query, its
second the player name `"p1"`/`"p2"`), `p1_turn` is the state attribute read by the
evaluators, and `get_possible_moves`/`make_move` are the state operations. -/
structure GameCtx (S M : Type) where
  is_over : S → Bool
  p1_turn : S → Bool
  is_winner : S → String → Bool
  get_possible_moves : S → List M
  make_move : S → M → S

/-- Errors of the embedded evaluators: `fuelOut` marks an execution that did not finish
within the given fuel (non-termination when it happens for every fuel), `emptyMax` the
`ValueError` Python's `max` raises on an empty sequence, `noneScore` the `TypeError`
raised when a `None` score is negated, `badIndex` an out-of-range list index. -/
inductive EvalErr where
  | fuelOut
  | emptyMax
  | noneScore
  | badIndex
deriving DecidableEq, Repr

/-- The terminal block shared by both evaluators (`strategy.py` lines 17-29 and 44-57):
compute `current` and `other` from `state.p1_turn`, save the context focus, install
`state` as the focus, query the two winner predicates, restore the saved focus and return
the three-valued score together with the restored focus. -/
def terminal_step {S M : Type} (g : GameCtx S M) (cur state : S) : Int × S :=
  let current := if g.p1_turn state = true then "p1" else "p2"
  let other := if current = "p2" then "p1" else "p2"
  let old_state := cur
  let focus := state
  if g.is_winner focus current && !(g.is_winner focus other) then (1, old_state)
  else if g.is_winner focus other && !(g.is_winner focus current) then (-1, old_state)
  else (0, old_state)

/-- Sequentially score a list of successor states with the scorer `f` (threading the
context focus) and negate each score, mirroring the list comprehension
`[-state_score_r(game, s) for s in states]`; the first exception aborts the list. -/
def neg_scores {S : Type} (f : S → S → Except EvalErr (Int × S)) :
    S → List S → Except EvalErr (List Int × S)
  | cur, [] => .ok ([], cur)
  | cur, s :: rest =>
    match f cur s with
    | .error e => .error e
    | .ok (v, cur') =>
      match neg_scores f cur' rest with
      | .error e => .error e
      | .ok (l, cur'') => .ok ((-v) :: l, cur'')

/-- The successor list `[state.make_move(m) for m in state.get_possible_moves()]`. -/
def successors {S M : Type} (g : GameCtx S M) (state : S) : List S :=
  (g.get_possible_moves state).map (g.make_move state)

/-- `state_score_r` (`strategy.py` lines 12-31), the recursive evaluator.  The first `S`
argument is the context's `current_state` focus before the call; an `.ok` result carries
the score together with the focus after the call. -/
def state_score_r {S M : Type} (g : GameCtx S M) : Nat → S → S → Except EvalErr (Int × S)
  | 0, _, _ => .error .fuelOut
  | fuel + 1, cur, state =>
    if g.is_over state then
      .ok (terminal_step g cur state)
    else
      match neg_scores (fun c s => state_score_r g fuel c s) cur (successors g state) with
      | .error e => .error e
      | .ok (l, cur') =>
        match l.max? with
        | none => .error .emptyMax
        | some v => .ok (v, cur')

/-- The node class of `tree.py`: a value, a list of children and an optional score.
Python nodes are heap objects aliased between the work stack and the `children` lists of
their parents, so the embedding stores nodes in an explicit heap (a list indexed by node
id) and `children` holds node ids. -/
structure Tree (S : Type) where
  value : S
  children : List Nat
  score : Option Int
deriving DecidableEq, Repr

/-- The run-time state of one `state_score_i` call: the node heap, the work stack of node
ids (head = top of stack, matching Python's `list.pop()` on the list tail), and the
context's `current_state` focus. -/
structure IterState (S : Type) where
  heap : List (Tree S)
  stack : List Nat
  cur : S
deriving DecidableEq, Repr

/-- Read the scores of the nodes with the given ids, in order (`[c.score for c in
tree.children]`); `none` if some id is dangling or some score is still unset. -/
def getScores {S : Type} (heap : List (Tree S)) : List Nat → Option (List Int)
  | [] => some []
  | i :: rest =>
    match heap.get? i with
    | none => none
    | some t =>
      match t.score with
      | none => none
      | some v => (getScores heap rest).map (fun l => v :: l)

/-- The heap nodes created for the successor states during one expansion
(`trees = [Tree(s) for s in states]`). -/
def freshNodes {S : Type} (states : List S) : List (Tree S) :=
  states.map (fun s => ⟨s, [], none⟩)

/-- The ids under which one expansion's fresh nodes are stored: they are appended to the
heap, so they are the next `states.length` indices after the current heap end. -/
def expandIds {S : Type} (heap : List (Tree S)) (states : List S) : List Nat :=
  (List.range states.length).map (fun j => j + heap.length)

/-- One iteration of the `while stack != []` loop of `state_score_i` (`strategy.py`
lines 41-66), for a non-empty stack: pop a node; if its state is over, resolve its score
by the terminal rule; else if it has no children yet, expand it (fresh child nodes are
appended to the heap, the node is pushed back and then its children are pushed, so the
last child is on top); else fold `max` over the negated children scores. -/
def step_i {S M : Type} (g : GameCtx S M) (σ : IterState S) : Except EvalErr (IterState S) :=
  match σ.stack with
  | [] => .ok σ
  | id :: rest =>
    match σ.heap.get? id with
    | none => .error .badIndex
    | some node =>
      if g.is_over node.value then
        let (v, cur') := terminal_step g σ.cur node.value
        .ok ⟨σ.heap.set id { node with score := some v }, rest, cur'⟩
      else if node.children = [] then
        let states := successors g node.value
        let ids := expandIds σ.heap states
        .ok ⟨σ.heap.set id { node with children := ids } ++ freshNodes states,
            ids.reverse ++ id :: rest, σ.cur⟩
      else
        match getScores σ.heap node.children with
        | none => .error .noneScore
        | some l =>
          match (l.map (fun v => -v)).max? with
          | none => .error .emptyMax
          | some v => .ok ⟨σ.heap.set id { node with score := some v }, rest, σ.cur⟩

/-- Run the loop of `state_score_i` until the stack is empty, consuming one unit of fuel
per iteration. -/
def run_i {S M : Type} (g : GameCtx S M) : Nat → IterState S → Except EvalErr (IterState S)
  | 0, σ => if σ.stack = [] then .ok σ else .error .fuelOut
  | fuel + 1, σ =>
    if σ.stack = [] then .ok σ
    else
      match step_i g σ with
      | .error e => .error e
      | .ok σ' => run_i g fuel σ'

/-- The initial machine state of `state_score_i`: a heap holding the single root node
`Tree(state_)` (id 0) and a stack holding the root. -/
def initIter {S : Type} (cur state_ : S) : IterState S :=
  ⟨[⟨state_, [], none⟩], [0], cur⟩

/-- `state_score_i` (`strategy.py` lines 34-67), the iterative evaluator: run the work
loop from the initial machine state and return the root's score (`initial.score`).  A root
whose score is still `None` at loop exit would be Python returning `None` where an `int`
is promised; it is reported as `noneScore`. -/
def state_score_i {S M : Type} (g : GameCtx S M) (fuel : Nat) (cur state_ : S) :
    Except EvalErr (Int × S) :=
  match run_i g fuel (initIter cur state_) with
  | .error e => .error e
  | .ok σ =>
    match σ.heap.get? 0 with
    | none => .error .badIndex
    | some root =>
      match root.score with
      | none => .error .noneScore
      | some v => .ok (v, σ.cur)

/-- `recursive_minimax_strategy` (`strategy.py` lines 70-78): score every successor of
the current state with the recursive evaluator, negate, and return
`moves[scores.index(max(scores))]` — the first move attaining the maximal negated score. -/
def recursive_minimax_strategy {S M : Type} (g : GameCtx S M) (fuel : Nat) (cur : S) :
    Except EvalErr (M × S) :=
  let moves := g.get_possible_moves cur
  match neg_scores (fun c s => state_score_r g fuel c s) cur (moves.map (g.make_move cur)) with
  | .error e => .error e
  | .ok (scores, cur') =>
    match scores.max? with
    | none => .error .emptyMax
    | some mx =>
      match moves.get? (scores.indexOf mx) with
      | none => .error .badIndex
      | some m => .ok (m, cur')

/-- Sequentially score a list of successor states with the iterative evaluator, without
negation (`[state_score_i(game, s) for s in possible_states]`). -/
def scores_i {S M : Type} (g : GameCtx S M) (fuel : Nat) :
    S → List S → Except EvalErr (List Int × S)
  | cur, [] => .ok ([], cur)
  | cur, s :: rest =>
    match state_score_i g fuel cur s with
    | .error e => .error e
    | .ok (v, cur') =>
      match scores_i g fuel cur' rest with
      | .error e => .error e
      | .ok (l, cur'') => .ok (v :: l, cur'')

/-- `iterative_minimax_strategy` (`strategy.py` lines 81-90): like the recursive
strategy but scoring with `state_score_i`; the scores are negated into `scores_` and the
move at `scores_.index(max(scores_))` is returned. -/
def iterative_minimax_strategy {S M : Type} (g : GameCtx S M) (fuel : Nat) (cur : S) :
    Except EvalErr (M × S) :=
  let moves := g.get_possible_moves cur
  match scores_i g fuel cur (moves.map (g.make_move cur)) with
  | .error e => .error e
  | .ok (scores, cur') =>
    let scores_ := scores.map (fun s => -s)
    match scores_.max? with
    | none => .error .emptyMax
    | some mx =>
      match moves.get? (scores_.indexOf mx) with
      | none => .error .badIndex
      | some m => .ok (m, cur')

/-- A small concrete game used to exercise the generic evaluators: states are natural
numbers, the single move decrements, state 0 is terminal, and when the game is over the
winner query answers `true` exactly for `"p1"`. -/
def toyGame : GameCtx Nat Unit where
  is_over := fun s => s = 0
  p1_turn := fun s => s % 2 = 0
  is_winner := fun s p => s = 0 && p = "p1"
  get_possible_moves := fun s => if s = 0 then [] else [()]
  make_move := fun s _ => s - 1

/-- A contract-violating game: state 0 has no legal moves but is never reported over. -/
def badGame : GameCtx Nat Unit where
  is_over := fun _ => false
  p1_turn := fun s => s % 2 = 0
  is_winner := fun _ _ => false
  get_possible_moves := fun s => if s = 0 then [] else [()]
  make_move := fun s _ => s - 1


/-- The three-valued terminal score of a state, read off the terminal block of the
evaluators with the focus dance removed (the two winner queries are answered relative to
the state under evaluation). -/
def terminal_score {S M : Type} (g : GameCtx S M) (s : S) : Int :=
  let current := if g.p1_turn s = true then "p1" else "p2"
  let other := if current = "p2" then "p1" else "p2"
  if g.is_winner s current && !(g.is_winner s other) then 1
  else if g.is_winner s other && !(g.is_winner s current) then -1
  else 0

/-- The pure negamax value of a state for a game whose move relation decreases the
measure `rank`: the terminal score at over states, else the maximum of the negated values
of the successors (`0` as a vacuous default for the unreachable no-successor case).  Both
evaluators are proved to compute this function. -/
def scoreP {S M : Type} (g : GameCtx S M) (rank : S → Nat)
    (hrank : ∀ s m, m ∈ g.get_possible_moves s → rank (g.make_move s m) < rank s)
    (s : S) : Int :=
  if g.is_over s then terminal_score g s
  else
    (((g.get_possible_moves s).attach.map
      (fun m => -(scoreP g rank hrank (g.make_move s m.1)))).max?).getD 0
termination_by rank s
decreasing_by exact hrank s m.1 m.2

/-- `StepsN g n σ σ'`: the work loop of `state_score_i` transforms machine state `σ` into
`σ'` in exactly `n` successful iterations (each taken with a non-empty stack). -/
inductive StepsN {S M : Type} (g : GameCtx S M) : Nat → IterState S → IterState S → Prop
  | refl (σ : IterState S) : StepsN g 0 σ σ
  | step {σ σ' σ'' : IterState S} {n : Nat} (hne : σ.stack ≠ [])
      (h : step_i g σ = .ok σ') (hs : StepsN g n σ' σ'') : StepsN g (n + 1) σ σ''

/-- The loop invariant of the iterative evaluator: every stacked id is a valid heap index,
every child id stored in any heap node is valid, every child of a stacked node is either
already resolved (score set) or sits strictly above its parent on the stack, and the root
node (id 0) is either still on the stack or resolved. -/
def Inv {S : Type} (σ : IterState S) : Prop :=
  (∀ id ∈ σ.stack, id < σ.heap.length) ∧
  (∀ nd ∈ σ.heap, ∀ j ∈ nd.children, j < σ.heap.length) ∧
  (∀ k id, σ.stack.get? k = some id → ∀ nd, σ.heap.get? id = some nd →
    ∀ j ∈ nd.children,
      (∃ t, σ.heap.get? j = some t ∧ t.score ≠ none) ∨
        ∃ kk, kk < k ∧ σ.stack.get? kk = some j) ∧
  ((0 ∈ σ.stack) ∨ ∃ nd, σ.heap.get? 0 = some nd ∧ nd.score ≠ none) ∧
  0 < σ.heap.length

/-- The behaviour of the iterative work loop on one freshly pushed node `id` holding state
`s`: some number of iterations removes exactly that stack entry, leaves the focus `cur`
untouched, only grows the heap, rewrites no heap entry other than `id` (and fresh ones
past the old end), and leaves node `id` resolved with the negamax value of `s`. -/
def NodeRun {S M : Type} (g : GameCtx S M) (rank : S → Nat)
    (hrank : ∀ s m, m ∈ g.get_possible_moves s → rank (g.make_move s m) < rank s)
    (heap : List (Tree S)) (rest : List Nat) (cur : S) (id : Nat) (s : S) : Prop :=
  ∃ k heap', StepsN g k ⟨heap, id :: rest, cur⟩ ⟨heap', rest, cur⟩ ∧
    heap.length ≤ heap'.length ∧
    (∀ j, j < heap.length → j ≠ id → heap'.get? j = heap.get? j) ∧
    ∃ ch, heap'.get? id = some ⟨s, ch, some (scoreP g rank hrank s)⟩

instance : Std.Antisymm (fun x1 x2 : Int => x1 ≤ x2) :=
  ⟨@fun _ _ h1 h2 => le_antisymm h1 h2⟩

end Minimax

namespace Stonehenge


/-- The running-sum loop shared by the ley-line builders
(`for n in ns: row.append(start + n); start += n`): the appended values together with the
final value of `start`. -/
def ley_loop (start : Nat) : List Nat → List Nat × Nat
  | [] => ([], start)
  | n :: rest =>
    let p := ley_loop (start + n) rest
    ((start + n) :: p.1, p.2)

/-- `create_ley_dl` (`stonehenge.py` lines 9-39): cell indices of the down-left
ley-lines.  The first diagonal starts from cell 0, the remaining rows start from the
heads `1, start+3, start+4, ...` and are filled by the running-sum loop; the last row
gets a single extra cell `head + board_size`. -/
def create_ley_dl (board_size : Nat) : List (List Nat) :=
  let diag0 := 0 :: (ley_loop 0 (List.range' 2 (board_size - 1))).1
  let heads := 1 :: (ley_loop 1 (List.range' 3 (board_size - 1))).1
  diag0 :: (List.range' 1 board_size).map (fun n =>
    let h := heads.getD (n - 1) 0
    if n < board_size then
      let p := ley_loop h (List.range' (n + 1) (board_size - n))
      (h :: p.1) ++ [p.2 + board_size]
    else
      [h, h + board_size])

/-- `create_ley_dr` (`stonehenge.py` lines 42-72): cell indices of the down-right
ley-lines, built like `create_ley_dl` with shifted loop ranges. -/
def create_ley_dr (board_size : Nat) : List (List Nat) :=
  let diag0 := 1 :: (ley_loop 1 (List.range' 3 (board_size - 1))).1
  let heads := 0 :: (ley_loop 0 (List.range' 2 (board_size - 1))).1
  diag0 :: (List.range' 1 board_size).map (fun n =>
    let h := heads.getD (n - 1) 0
    if n < board_size then
      let p := ley_loop h (List.range' (n + 2) (board_size - n))
      (h :: p.1) ++ [p.2 + board_size + 1]
    else
      [h, h + board_size + 1])

/-- `create_ley_row` (`stonehenge.py` lines 75-91): cell indices of the horizontal
ley-lines: consecutive runs of lengths `2, 3, ..., board_size + 1, board_size`. -/
def create_ley_row (board_size : Nat) : List (List Nat) :=
  let p := (List.range' 2 board_size).foldl
    (fun (acc : List (List Nat) × Nat) n =>
      (acc.1 ++ [List.range' acc.2 n], acc.2 + n)) ([], 0)
  p.1 ++ [List.range' p.2 board_size]

/-- Lookup `state[cell]` in the ordered-dict model of `cell_state`; a missing key (a
`KeyError` in Python) yields `0`, a case that never arises on boards built by the
class. -/
def dget (state : List (Char × Nat)) (k : Char) : Nat :=
  match state.find? (fun p => p.1 == k) with
  | some p => p.2
  | none => 0

/-- `d[k] = v` on the ordered-dict model: replace the entry in place when the key is
present (Python dicts keep insertion order), else append a new entry. -/
def dset (state : List (Char × Nat)) (k : Char) (v : Nat) : List (Char × Nat) :=
  if state.any (fun p => p.1 == k) then
    state.map (fun p => if p.1 == k then (p.1, v) else p)
  else state ++ [(k, v)]

/-- The loop body of `create_markers` (`stonehenge.py` lines 104-118), computing the
marker of one ley-line.  Python's float test `cell1/len(list_) >= 0.5` is modelled by
the exact integer test `2 * cell1 ≥ len`: `0.5` is exactly representable and float
division is correctly rounded, so the two agree for these magnitudes.  On an empty line
Python would raise `ZeroDivisionError`; here it yields `'1'`, and such a line never
occurs on a real board. -/
def markerOf (list_ : List Char) (state : List (Char × Nat)) : Char :=
  let cell1 := list_.countP (fun cell => dget state cell == 1)
  let cell2 := list_.countP (fun cell => dget state cell == 2)
  if 2 * cell1 ≥ list_.length then '1'
  else if 2 * cell2 ≥ list_.length then '2'
  else '@'

/-- `create_markers` (`stonehenge.py` lines 94-119): one marker per ley-line. -/
def create_markers (line : List (List Char)) (state : List (Char × Nat)) : List Char :=
  line.map (fun list_ => markerOf list_ state)

/-- The state of the game Stonehenge (`stonehenge.py` lines 153-207): whose turn it is,
the three families of ley-lines (as cell letters), their markers, and the per-cell
claim status (`0` unclaimed, `1`/`2` claimed by that player), as an ordered dict. -/
structure StonehengeState where
  p1_turn : Bool
  ley : List (List (List Char))
  mark_dl : List Char
  mark_dr : List Char
  mark_row : List Char
  cell_state : List (Char × Nat)
deriving DecidableEq, Repr

/-- `StonehengeState.CELLS`. -/
def CELLS : List Char :=
  ['A', 'B', 'C', 'D', 'E', 'F', 'G', 'H', 'I', 'J', 'K', 'L', 'M',
   'N', 'O', 'P', 'Q', 'R', 'S', 'T', 'U', 'V', 'W', 'X', 'Y', 'Z']

/-- `is_winner` (`stonehenge.py` lines 136-150): `player` (1 or 2) has captured at least
half of all ley-lines.  `num / len(lines) >= 0.5` is modelled as `2 * num ≥ len`, and
`str(player)` as `Nat.digitChar player`. -/
def is_winner (state : StonehengeState) (player : Nat) : Bool :=
  let lines := state.mark_dl ++ state.mark_dr ++ state.mark_row
  let num := lines.countP (fun x => x == Nat.digitChar player)
  decide (2 * num ≥ lines.length)

/-- `num_cells = sum(range(3, 3 + board_size))` of `__init__`. -/
def num_cells (board_size : Nat) : Nat := (List.range' 3 board_size).foldl (· + ·) 0

/-- The cell letters of a board (`used_cells = CELLS[:num_cells]` of `__init__`). -/
def used_cells (board_size : Nat) : List Char := CELLS.take (num_cells board_size)

/-- The letter image of an index-built ley-line family
(`[StonehengeState.CELLS[x] for x in list_]` of `__init__`); `CELLS[x]` for `x ≥ 26`
raises `IndexError` in Python and is modelled as `'?'`. -/
def leyLetters (idx : List (List Nat)) : List (List Char) :=
  idx.map (fun l => l.map (fun x => CELLS.getD x '?'))

/-- `StonehengeState.__init__` (`stonehenge.py` lines 173-207): `num_cells` cells named
by the first letters of `CELLS`, all unclaimed; the ley-lines are the letter images of
the three index builders, and all markers are freshly computed (hence all `'@'`). -/
def StonehengeState.init (is_p1_turn : Bool) (board_size : Nat) : StonehengeState :=
  let cell_state := (used_cells board_size).map (fun x => (x, 0))
  let ley_dl := leyLetters (create_ley_dl board_size)
  let ley_dr := leyLetters (create_ley_dr board_size)
  let ley_row := leyLetters (create_ley_row board_size)
  { p1_turn := is_p1_turn
    ley := [ley_dl, ley_dr, ley_row]
    mark_dl := create_markers ley_dl cell_state
    mark_dr := create_markers ley_dr cell_state
    mark_row := create_markers ley_row cell_state
    cell_state := cell_state }

/-- `get_possible_moves` (`stonehenge.py` lines 247-263): while no player has won, the
unclaimed cell letters in dict (insertion) order; else no moves. -/
def StonehengeState.get_possible_moves (s : StonehengeState) : List Char :=
  if !(is_winner s 1) && !(is_winner s 2) then
    (s.cell_state.filter (fun p => p.2 == 0)).map (fun p => p.1)
  else []

/-- `make_move` (`stonehenge.py` lines 265-301): build a fresh state for the same board
size (recovered as `len(mark_dl) - 1`), copy the cells and claim `move` for the mover,
then recompute each marker family keeping every already captured (non-`'@'`) marker:
`[old[i] if old[i] != '@' else new[i] for i in range(len(old))]` (an out-of-range read of
`new`, impossible on class-built states, is modelled as `'?'`). -/
def StonehengeState.make_move (s : StonehengeState) (move : Char) : StonehengeState :=
  let new0 := StonehengeState.init (!s.p1_turn) (s.mark_dl.length - 1)
  let cs := dset s.cell_state move (if s.p1_turn then 1 else 2)
  let old_dl := s.mark_dl
  let old_dr := s.mark_dr
  let old_row := s.mark_row
  let new_dl := create_markers (s.ley.getD 0 []) cs
  let new_dr := create_markers (s.ley.getD 1 []) cs
  let new_row := create_markers (s.ley.getD 2 []) cs
  { new0 with
    cell_state := cs
    mark_dl := (List.range old_dl.length).map (fun i =>
      if old_dl.getD i '?' ≠ '@' then old_dl.getD i '?' else new_dl.getD i '?')
    mark_dr := (List.range old_dr.length).map (fun i =>
      if old_dr.getD i '?' ≠ '@' then old_dr.getD i '?' else new_dr.getD i '?')
    mark_row := (List.range old_row.length).map (fun i =>
      if old_row.getD i '?' ≠ '@' then old_row.getD i '?' else new_row.getD i '?') }

/-- Modelled from the spec: the outcome constants of the missing `game_state.py`
(`GameState.WIN`). The spec's "rough_outcome(state) -> float in [-1, 1]" together with
the docstring examples returning `1` and `-1` fix `WIN = 1`, `LOSE = -1`, `DRAW = 0`. -/
def WIN : ℚ := 1

/-- Modelled from the spec: `GameState.LOSE` of the missing `game_state.py`. -/
def LOSE : ℚ := -1

/-- Modelled from the spec: `GameState.DRAW` of the missing `game_state.py`. -/
def DRAW : ℚ := 0

/-- `rough_outcome` (`stonehenge.py` lines 318-349); Python floats are modelled as exact
rationals. -/
def StonehengeState.rough_outcome (s : StonehengeState) : ℚ :=
  let current := if s.p1_turn then 1 else 2
  let opponent := if current = 1 then 2 else 1
  let states := s.get_possible_moves.map s.make_move
  if states.any (fun x => is_winner x current) then WIN
  else
    let substates := states.map (fun x => x.get_possible_moves.map x.make_move)
    if substates.all (fun l => l.any (fun t => is_winner t opponent)) then LOSE
    else
      let lines := s.mark_dl ++ s.mark_dr ++ s.mark_row
      let num_cur := lines.countP (fun x => x == Nat.digitChar current)
      let num_opp := lines.countP (fun x => x == Nat.digitChar opponent)
      if num_cur = num_opp then DRAW
      else if num_cur > num_opp then
        ((num_cur : ℚ) - (num_opp : ℚ)) / ((lines.length : ℚ) / 2)
      else -(((num_opp : ℚ) - (num_cur : ℚ)) / ((lines.length : ℚ) / 2))

/-- `StonehengeGame.is_over` (`stonehenge.py` lines 382-387). -/
def StonehengeGame.is_over (state : StonehengeState) : Bool :=
  is_winner state 1 || is_winner state 2

/-- The states constructible by the game: an initial board (side length between 1, the
minimum `StonehengeGame.__init__` accepts, and 5, the largest for which `__init__` does
not overflow the 26-letter `CELLS` with an `IndexError`) followed by any sequence of
legal moves. -/
inductive Reach : StonehengeState → Prop
  | init (is_p1_turn : Bool) (board_size : Nat) (h1 : 1 ≤ board_size)
      (h5 : board_size ≤ 5) : Reach (StonehengeState.init is_p1_turn board_size)
  | move {s : StonehengeState} (hs : Reach s) {m : Char}
      (hm : m ∈ s.get_possible_moves) : Reach (s.make_move m)

/-- Class invariant of one marker family: one marker per ley-line; every marker is
`'@'`, `'1'` or `'2'`; and a marker still `'@'` would again be computed `'@'` from the
current cells (capturing is sticky, so a non-`'@'` marker is final while an `'@'` marker
always agrees with the live computation). -/
def marksInv (marks : List Char) (lines : List (List Char)) (cs : List (Char × Nat)) :
    Prop :=
  marks.length = lines.length ∧
  ∀ i, i < marks.length →
    (marks.getD i '?' = '@' ∨ marks.getD i '?' = '1' ∨ marks.getD i '?' = '2') ∧
    (marks.getD i '?' = '@' → markerOf (lines.getD i []) cs = '@')

/-- Class invariant of the states `StonehengeState.__init__` and `make_move` produce on
a board of size `bs`: the sizes are in the constructible range, the ley-lines are the
canonical ones, the markers have one entry per line, the dict keys are exactly the used
cell letters in order, the cell values are at most 2, and each marker family satisfies
`marksInv`. -/
def StateInv (bs : Nat) (s : StonehengeState) : Prop :=
  1 ≤ bs ∧ bs ≤ 5 ∧
  s.ley = [leyLetters (create_ley_dl bs), leyLetters (create_ley_dr bs),
           leyLetters (create_ley_row bs)] ∧
  s.mark_dl.length = bs + 1 ∧
  s.cell_state.map Prod.fst = used_cells bs ∧
  (∀ p ∈ s.cell_state, p.2 ≤ 2) ∧
  marksInv s.mark_dl (leyLetters (create_ley_dl bs)) s.cell_state ∧
  marksInv s.mark_dr (leyLetters (create_ley_dr bs)) s.cell_state ∧
  marksInv s.mark_row (leyLetters (create_ley_row bs)) s.cell_state

end Stonehenge

namespace Minimax

example : state_score_r toyGame 1 7 0 = .ok (1, 7) := by decide
example : state_score_r toyGame 2 7 1 = .ok (-1, 7) := by decide
example : state_score_r toyGame 3 7 2 = .ok (1, 7) := by decide
example : state_score_i toyGame 1 7 0 = .ok (1, 7) := by decide
example : state_score_i toyGame 9 7 2 = .ok (1, 7) := by decide
example : recursive_minimax_strategy toyGame 3 2 = .ok ((), 2) := by decide
example : iterative_minimax_strategy toyGame 9 2 = .ok ((), 2) := by decide
example : state_score_i badGame 50 7 0 = .error .fuelOut := by decide
example : state_score_r badGame 50 7 0 = .error .emptyMax := by decide

lemma int_max?_spec {l : List Int} {a : Int} (h : l.max? = some a) :
    a ∈ l ∧ ∀ b ∈ l, b ≤ a := by
  rw [List.max?_eq_some_iff le_refl max_choice (fun _ _ _ => max_le_iff)] at h
  exact h

lemma int_max?_eq_some {l : List Int} {a : Int} (h1 : a ∈ l) (h2 : ∀ b ∈ l, b ≤ a) :
    l.max? = some a := by
  rw [List.max?_eq_some_iff le_refl max_choice (fun _ _ _ => max_le_iff)]
  exact ⟨h1, h2⟩

lemma int_max?_of_ne_nil {l : List Int} (h : l ≠ []) : ∃ a, l.max? = some a := by
  cases hm : l.max? with
  | none => exact absurd (List.max?_eq_none_iff.mp hm) h
  | some a => exact ⟨a, rfl⟩

lemma terminal_step_eq {S M : Type} (g : GameCtx S M) (cur s : S) :
    terminal_step g cur s = (terminal_score g s, cur) := by
  cases hp : g.p1_turn s <;>
  cases h1 : g.is_winner s "p1" <;>
  cases h2 : g.is_winner s "p2" <;>
  simp [terminal_step, terminal_score, hp, h1, h2]

lemma neg_scores_cur {S : Type} {f : S → S → Except EvalErr (Int × S)}
    (hf : ∀ c s v c', f c s = .ok (v, c') → c' = c) :
    ∀ (l : List S) (cur : S) (r : List Int) (cur' : S),
      neg_scores f cur l = .ok (r, cur') → cur' = cur := by
  intro l
  induction l with
  | nil =>
    intro cur r cur' h
    simp only [neg_scores, Except.ok.injEq, Prod.mk.injEq] at h
    exact h.2.symm
  | cons s rest ih =>
    intro cur r cur' h
    simp only [neg_scores] at h
    cases hf1 : f cur s with
    | error e => simp only [hf1] at h; exact Except.noConfusion h
    | ok p =>
      obtain ⟨v, c1⟩ := p
      simp only [hf1] at h
      cases h2 : neg_scores f c1 rest with
      | error e => simp only [h2] at h; exact Except.noConfusion h
      | ok q =>
        obtain ⟨l2, c2⟩ := q
        simp only [h2, Except.ok.injEq, Prod.mk.injEq] at h
        have e1 : c1 = cur := hf cur s v c1 hf1
        have e2 : c2 = c1 := ih c1 l2 c2 h2
        rw [← h.2, e2, e1]

lemma state_score_r_cur {S M : Type} (g : GameCtx S M) :
    ∀ (fuel : Nat) (cur s : S) (v : Int) (cur' : S),
      state_score_r g fuel cur s = .ok (v, cur') → cur' = cur := by
  intro fuel
  induction fuel with
  | zero => intro cur s v cur' h; simp [state_score_r] at h
  | succ f ih =>
    intro cur s v cur' h
    rw [state_score_r] at h
    by_cases ho : g.is_over s
    · rw [if_pos ho] at h
      simp only [Except.ok.injEq] at h
      rw [terminal_step_eq] at h
      exact (Prod.mk.injEq .. ▸ h).2.symm ▸ rfl
    · rw [if_neg ho] at h
      cases hns : neg_scores (fun c s => state_score_r g f c s) cur (successors g s) with
      | error e => simp only [hns] at h; exact Except.noConfusion h
      | ok p =>
        obtain ⟨l, c1⟩ := p
        simp only [hns] at h
        cases hm : l.max? with
        | none => simp only [hm] at h; exact Except.noConfusion h
        | some mv =>
          simp only [hm, Except.ok.injEq, Prod.mk.injEq] at h
          have e1 : c1 = cur := neg_scores_cur (fun c s v c' => ih c s v c') _ _ _ _ hns
          rw [← h.2, e1]

lemma step_i_cur {S M : Type} (g : GameCtx S M) {σ σ' : IterState S}
    (h : step_i g σ = .ok σ') : σ'.cur = σ.cur := by
  unfold step_i at h
  cases hs : σ.stack with
  | nil => simp only [hs, Except.ok.injEq] at h; rw [← h]
  | cons id rest =>
    simp only [hs] at h
    cases hn : σ.heap.get? id with
    | none => simp only [hn] at h; exact Except.noConfusion h
    | some node =>
      simp only [hn] at h
      by_cases ho : g.is_over node.value
      · rw [if_pos ho] at h
        rw [terminal_step_eq] at h
        simp only [Except.ok.injEq] at h
        rw [← h]
      · rw [if_neg ho] at h
        by_cases hc : node.children = []
        · rw [if_pos hc] at h
          simp only [Except.ok.injEq] at h
          rw [← h]
        · rw [if_neg hc] at h
          cases hg : getScores σ.heap node.children with
          | none => simp only [hg] at h; exact Except.noConfusion h
          | some l =>
            simp only [hg] at h
            cases hm : (l.map (fun v => -v)).max? with
            | none => simp only [hm] at h; exact Except.noConfusion h
            | some v =>
              simp only [hm, Except.ok.injEq] at h
              rw [← h]

lemma run_i_cur {S M : Type} (g : GameCtx S M) :
    ∀ (fuel : Nat) (σ σ' : IterState S), run_i g fuel σ = .ok σ' → σ'.cur = σ.cur := by
  intro fuel
  induction fuel with
  | zero =>
    intro σ σ' h
    unfold run_i at h
    by_cases hs : σ.stack = []
    · rw [if_pos hs] at h; simp only [Except.ok.injEq] at h; rw [← h]
    · rw [if_neg hs] at h; cases h
  | succ f ih =>
    intro σ σ' h
    unfold run_i at h
    by_cases hs : σ.stack = []
    · rw [if_pos hs] at h; simp only [Except.ok.injEq] at h; rw [← h]
    · rw [if_neg hs] at h
      cases hst : step_i g σ with
      | error e => rw [hst] at h; cases h
      | ok σ1 =>
        rw [hst] at h
        rw [ih σ1 σ' h, step_i_cur g hst]

lemma run_i_nil {S M : Type} (g : GameCtx S M) (fuel : Nat) (σ : IterState S)
    (h : σ.stack = []) : run_i g fuel σ = .ok σ := by
  cases fuel <;> simp [run_i, h]

lemma state_score_i_cur {S M : Type} (g : GameCtx S M) (fuel : Nat) (cur s : S)
    (v : Int) (cur' : S) (h : state_score_i g fuel cur s = .ok (v, cur')) : cur' = cur := by
  unfold state_score_i at h
  cases hr : run_i g fuel (initIter cur s) with
  | error e => simp only [hr] at h; exact Except.noConfusion h
  | ok σ =>
    simp only [hr] at h
    cases hg : σ.heap.get? 0 with
    | none => simp only [hg] at h; exact Except.noConfusion h
    | some root =>
      simp only [hg] at h
      cases hsc : root.score with
      | none => simp only [hsc] at h; exact Except.noConfusion h
      | some w =>
        simp only [hsc, Except.ok.injEq, Prod.mk.injEq] at h
        rw [← h.2, run_i_cur g fuel _ _ hr]
        rfl

/-- C4: every terminating call of `state_score_r` or `state_score_i` leaves the game
context's `current_state` focus exactly as it was immediately before the call: an `.ok`
result always carries back the incoming focus, on every return path. -/
theorem score_restores_current_state {S M : Type} (g : GameCtx S M) (fuel : Nat)
    (cur state : S) (v : Int) (cur' : S) :
    (state_score_r g fuel cur state = .ok (v, cur') → cur' = cur) ∧
    (state_score_i g fuel cur state = .ok (v, cur') → cur' = cur) :=
  ⟨fun h => state_score_r_cur g fuel cur state v cur' h,
   fun h => state_score_i_cur g fuel cur state v cur' h⟩

/-- Witness for C4: a concrete run of each evaluator on the toy game, with the focus `7`
restored on return. -/
theorem score_restores_current_state_witness :
    ((7 : Nat) = 7) ∧ ((7 : Nat) = 7) :=
  ⟨(score_restores_current_state toyGame 3 7 2 1 7).1 (by decide),
   (score_restores_current_state toyGame 9 7 2 1 7).2 (by decide)⟩

lemma state_score_r_terminal {S M : Type} (g : GameCtx S M) (cur s : S) (f : Nat)
    (ho : g.is_over s = true) :
    state_score_r g (f + 1) cur s = .ok (terminal_score g s, cur) := by
  rw [state_score_r, if_pos ho, terminal_step_eq]

lemma step_i_initial_terminal {S M : Type} (g : GameCtx S M) (cur s : S)
    (ho : g.is_over s = true) :
    step_i g (initIter cur s) = .ok ⟨[⟨s, [], some (terminal_score g s)⟩], [], cur⟩ := by
  simp [step_i, initIter, ho, terminal_step_eq]

lemma state_score_i_terminal {S M : Type} (g : GameCtx S M) (cur s : S) (f : Nat)
    (ho : g.is_over s = true) :
    state_score_i g (f + 1) cur s = .ok (terminal_score g s, cur) := by
  have h2 : run_i g (f + 1) (initIter cur s) =
      .ok ⟨[⟨s, [], some (terminal_score g s)⟩], [], cur⟩ := by
    rw [run_i]
    rw [if_neg (by simp [initIter])]
    rw [step_i_initial_terminal g cur s ho]
    exact run_i_nil g f _ rfl
  unfold state_score_i
  rw [h2]
  rfl

/-- C2: on every state the game reports over, both evaluators return `1` when the player
to move in that state is a winner and the other player is not, `-1` when the other player
is a winner and the player to move is not, and `0` otherwise. -/
theorem evaluators_terminal_scoring {S M : Type} (g : GameCtx S M) (cur s : S) (fuel : Nat)
    (hover : g.is_over s = true) (hfuel : 1 ≤ fuel) :
    ∃ w : Int,
      state_score_r g fuel cur s = .ok (w, cur) ∧
      state_score_i g fuel cur s = .ok (w, cur) ∧
      w = (if g.is_winner s (if g.p1_turn s then "p1" else "p2") = true ∧
              g.is_winner s (if g.p1_turn s then "p2" else "p1") = false then (1 : Int)
           else if g.is_winner s (if g.p1_turn s then "p2" else "p1") = true ∧
              g.is_winner s (if g.p1_turn s then "p1" else "p2") = false then (-1 : Int)
           else 0) := by
  obtain ⟨f, rfl⟩ : ∃ f, fuel = f + 1 := ⟨fuel - 1, by omega⟩
  refine ⟨terminal_score g s, state_score_r_terminal g cur s f hover,
    state_score_i_terminal g cur s f hover, ?_⟩
  cases hp : g.p1_turn s <;>
  cases h1 : g.is_winner s "p1" <;>
  cases h2 : g.is_winner s "p2" <;>
  simp [terminal_score, hp, h1, h2]

/-- Witness for C2: the toy game's terminal state `0` (player 1 to move and declared the
only winner), scored `1` by both evaluators. -/
theorem evaluators_terminal_scoring_witness :
    ∃ w : Int,
      state_score_r toyGame 1 7 0 = .ok (w, 7) ∧
      state_score_i toyGame 1 7 0 = .ok (w, 7) ∧
      w = (if toyGame.is_winner 0 (if toyGame.p1_turn 0 then "p1" else "p2") = true ∧
              toyGame.is_winner 0 (if toyGame.p1_turn 0 then "p2" else "p1") = false then (1 : Int)
           else if toyGame.is_winner 0 (if toyGame.p1_turn 0 then "p2" else "p1") = true ∧
              toyGame.is_winner 0 (if toyGame.p1_turn 0 then "p1" else "p2") = false then (-1 : Int)
           else 0) :=
  evaluators_terminal_scoring toyGame 7 0 1 (by decide) (by decide)

lemma get?_some_lt {α : Type} {l : List α} {n : Nat} {a : α} (h : l.get? n = some a) :
    n < l.length := by
  by_contra hn
  rw [List.get?_eq_none.mpr (le_of_not_lt hn)] at h
  cases h

lemma step_i_terminal {S M : Type} (g : GameCtx S M) {σ : IterState S} {id : Nat}
    {rest : List Nat} {node : Tree S} (hs : σ.stack = id :: rest)
    (hn : σ.heap.get? id = some node) (ho : g.is_over node.value = true) :
    step_i g σ =
      .ok ⟨σ.heap.set id { node with score := some (terminal_score g node.value) },
           rest, σ.cur⟩ := by
  unfold step_i
  simp only [hs, hn, ho, if_true, terminal_step_eq]

lemma step_i_expand {S M : Type} (g : GameCtx S M) {σ : IterState S} {id : Nat}
    {rest : List Nat} {node : Tree S} (hs : σ.stack = id :: rest)
    (hn : σ.heap.get? id = some node) (ho : g.is_over node.value = false)
    (hc : node.children = []) :
    step_i g σ =
      .ok ⟨σ.heap.set id
            { node with children := expandIds σ.heap (successors g node.value) } ++
            freshNodes (successors g node.value),
          (expandIds σ.heap (successors g node.value)).reverse ++ id :: rest, σ.cur⟩ := by
  unfold step_i
  simp only [hs, hn, ho, hc, Bool.false_eq_true, if_false, if_true]

lemma step_i_resolve {S M : Type} (g : GameCtx S M) {σ : IterState S} {id : Nat}
    {rest : List Nat} {node : Tree S} {l : List Int} {v : Int} (hs : σ.stack = id :: rest)
    (hn : σ.heap.get? id = some node) (ho : g.is_over node.value = false)
    (hc : node.children ≠ []) (hg : getScores σ.heap node.children = some l)
    (hm : (l.map (fun v => -v)).max? = some v) :
    step_i g σ = .ok ⟨σ.heap.set id { node with score := some v }, rest, σ.cur⟩ := by
  unfold step_i
  simp only [hs, hn, ho, Bool.false_eq_true, if_false, hc, if_neg hc, hg, hm]

lemma stepsN_trans {S M : Type} {g : GameCtx S M} :
    ∀ {n m : Nat} {σ σ' σ'' : IterState S},
      StepsN g n σ σ' → StepsN g m σ' σ'' → StepsN g (n + m) σ σ'' := by
  intro n m σ σ' σ'' h1 h2
  induction h1 with
  | refl σ => simpa using h2
  | step hne h hs ih =>
    have h3 := StepsN.step hne h (ih h2)
    simpa [Nat.add_right_comm] using h3

lemma run_i_of_stepsN {S M : Type} {g : GameCtx S M} {n : Nat} {σ σ' : IterState S}
    (h : StepsN g n σ σ') : ∀ fuel, n ≤ fuel → run_i g fuel σ = run_i g (fuel - n) σ' := by
  induction h with
  | refl σ => intro fuel _; simp
  | step hne hstep hs ih =>
    intro fuel hf
    obtain ⟨f, rfl⟩ : ∃ f, fuel = f + 1 := ⟨fuel - 1, by omega⟩
    rw [run_i, if_neg hne]
    simp only [hstep]
    rw [Nat.add_sub_add_right]
    exact ih f (by omega)

lemma getScores_forall₂ {S : Type} (heap : List (Tree S)) :
    ∀ {idsl : List Nat} {vals : List Int},
      List.Forall₂ (fun j v => ∃ t, heap.get? j = some t ∧ t.score = some v) idsl vals →
      getScores heap idsl = some vals := by
  intro idsl vals h
  induction h with
  | nil => rfl
  | cons h1 h2 ih =>
    obtain ⟨t, ht, hsc⟩ := h1
    simp only [getScores, ht, hsc, ih, Option.map_some']

lemma scoreP_eq {S M : Type} (g : GameCtx S M) (rank : S → Nat)
    (hrank : ∀ s m, m ∈ g.get_possible_moves s → rank (g.make_move s m) < rank s) (s : S) :
    scoreP g rank hrank s =
      if g.is_over s then terminal_score g s
      else (((successors g s).map (fun t => -(scoreP g rank hrank t))).max?).getD 0 := by
  rw [scoreP]
  by_cases ho : g.is_over s
  · rw [if_pos ho, if_pos ho]
  · rw [if_neg ho, if_neg ho]
    congr 2
    simp [successors, List.map_map, List.attach_map_coe]

lemma neg_scores_ok {S : Type} {f : S → S → Except EvalErr (Int × S)} {q : S → Int} :
    ∀ (l : List S), (∀ t ∈ l, ∀ c, f c t = .ok (q t, c)) →
      ∀ cur, neg_scores f cur l = .ok (l.map (fun t => -(q t)), cur) := by
  intro l
  induction l with
  | nil => intro _ cur; rfl
  | cons s rest ih =>
    intro hf cur
    have h1 : f cur s = .ok (q s, cur) := hf s (List.mem_cons_self s rest) cur
    have h2 : neg_scores f cur rest = .ok (rest.map (fun t => -(q t)), cur) :=
      ih (fun t ht c => hf t (List.mem_cons_of_mem _ ht) c) cur
    simp only [neg_scores, h1, h2, List.map_cons]

lemma successors_ne_nil {S M : Type} (g : GameCtx S M)
    (hover : ∀ s, g.get_possible_moves s = [] → g.is_over s = true)
    {s : S} (ho : ¬ g.is_over s = true) : successors g s ≠ [] := by
  intro hnil
  rw [successors, List.map_eq_nil] at hnil
  exact ho (hover s hnil)

lemma state_score_r_ok {S M : Type} (g : GameCtx S M) (rank : S → Nat)
    (hrank : ∀ s m, m ∈ g.get_possible_moves s → rank (g.make_move s m) < rank s)
    (hover : ∀ s, g.get_possible_moves s = [] → g.is_over s = true) :
    ∀ (fuel : Nat) (s : S), rank s < fuel → ∀ cur,
      state_score_r g fuel cur s = .ok (scoreP g rank hrank s, cur) := by
  intro fuel
  induction fuel with
  | zero => intro s h; omega
  | succ f ih =>
    intro s hs cur
    by_cases ho : g.is_over s
    · rw [state_score_r_terminal g cur s f ho, scoreP_eq, if_pos ho]
    · rw [state_score_r, if_neg ho]
      have hchild : ∀ t ∈ successors g s, rank t < f := by
        intro t ht
        rw [successors] at ht
        obtain ⟨m, hm, rfl⟩ := List.mem_map.mp ht
        have := hrank s m hm
        omega
      have hns := neg_scores_ok (f := fun c t => state_score_r g f c t)
        (q := fun t => scoreP g rank hrank t) (successors g s)
        (fun t ht c => ih t (hchild t ht) c) cur
      simp only at hns
      rw [hns]
      have hne : (successors g s).map (fun t => -(scoreP g rank hrank t)) ≠ [] := by
        simp [successors_ne_nil g hover ho]
      obtain ⟨a, ha⟩ := int_max?_of_ne_nil hne
      simp only [ha]
      rw [scoreP_eq, if_neg ho, ha]
      rfl

lemma expandIds_length {S : Type} (heap : List (Tree S)) (states : List S) :
    (expandIds heap states).length = states.length := by
  simp [expandIds]

lemma expandIds_nodup {S : Type} (heap : List (Tree S)) (states : List S) :
    (expandIds heap states).Nodup :=
  (List.nodup_range _).map (fun a b h => by omega)

lemma expandIds_ge {S : Type} {heap : List (Tree S)} {states : List S} {j : Nat}
    (h : j ∈ expandIds heap states) : heap.length ≤ j := by
  rw [expandIds] at h
  obtain ⟨i, _, rfl⟩ := List.mem_map.mp h
  omega

lemma mem_expandIds {S : Type} {heap : List (Tree S)} {states : List S} {j : Nat} :
    j ∈ expandIds heap states ↔ ∃ i, i < states.length ∧ j = i + heap.length := by
  simp only [expandIds, List.mem_map, List.mem_range]
  constructor
  · rintro ⟨i, hi, rfl⟩; exact ⟨i, hi, rfl⟩
  · rintro ⟨i, hi, rfl⟩; exact ⟨i, hi, rfl⟩

lemma getScores_expand {S : Type} (heap2 : List (Tree S)) (q : S → Int) :
    ∀ (states : List S) (base : Nat),
      (∀ (i : Nat) (hi : i < states.length), ∃ ch,
        heap2.get? (i + base) = some ⟨states.get ⟨i, hi⟩, ch, some (q (states.get ⟨i, hi⟩))⟩) →
      getScores heap2 ((List.range states.length).map (fun j => j + base)) =
        some (states.map q) := by
  intro states
  induction states with
  | nil => intro base _; rfl
  | cons s rest ih =>
    intro base h
    obtain ⟨ch0, hch0⟩ := h 0 (Nat.succ_pos _)
    have hfun : ((fun j : Nat => j + base) ∘ Nat.succ) = (fun j : Nat => j + (base + 1)) := by
      funext j
      simp [Function.comp]
      omega
    rw [List.length_cons, List.range_succ_eq_map, List.map_cons, List.map_map, hfun]
    have hch0' : heap2.get? (0 + base) = some ⟨s, ch0, some (q s)⟩ := hch0
    have hrec := ih (base + 1) ?tail
    case tail =>
      intro i hi
      obtain ⟨ch', hch'⟩ := h (i + 1) (Nat.succ_lt_succ hi)
      refine ⟨ch', ?_⟩
      rw [show i + (base + 1) = i + 1 + base from by omega]
      exact hch'
    simp only [getScores, hch0', hrec, Option.map_some', List.map_cons]

lemma iter_children {S M : Type} (g : GameCtx S M) (rank : S → Nat)
    (hrank : ∀ s m, m ∈ g.get_possible_moves s → rank (g.make_move s m) < rank s)
    {N : Nat}
    (IH : ∀ s, rank s < N → ∀ heap rest cur id node, heap.get? id = some node →
        node.value = s → node.children = [] → node.score = none →
        NodeRun g rank hrank heap rest cur id s) :
    ∀ (r : List Nat), r.Nodup →
      ∀ (heap : List (Tree S)) (stack : List Nat) (cur : S),
        (∀ j ∈ r, ∃ nd, heap.get? j = some nd ∧ nd.children = [] ∧ nd.score = none ∧
          rank nd.value < N) →
        ∃ k heap', StepsN g k ⟨heap, r ++ stack, cur⟩ ⟨heap', stack, cur⟩ ∧
          heap.length ≤ heap'.length ∧
          (∀ j, j < heap.length → j ∉ r → heap'.get? j = heap.get? j) ∧
          (∀ j ∈ r, ∀ nd, heap.get? j = some nd →
            ∃ ch, heap'.get? j = some ⟨nd.value, ch, some (scoreP g rank hrank nd.value)⟩) := by
  intro r
  induction r with
  | nil =>
    intro _ heap stack cur _
    exact ⟨0, heap, .refl _, le_refl _, fun j _ _ => rfl,
      fun j hj => absurd hj (List.not_mem_nil j)⟩
  | cons j r' ihr =>
    intro hnd heap stack cur hfr
    obtain ⟨hjr, hnd'⟩ := List.nodup_cons.mp hnd
    obtain ⟨nd, hnd1, hc, hsc, hrk⟩ := hfr j (List.mem_cons_self j r')
    obtain ⟨k1, heap1, hst1, hlen1, hpres1, ch1, hres1⟩ :=
      IH nd.value hrk heap (r' ++ stack) cur j nd hnd1 rfl hc hsc
    have hjlt : j < heap.length := get?_some_lt hnd1
    have hside : ∀ j' ∈ r', ∃ nd', heap1.get? j' = some nd' ∧ nd'.children = [] ∧
        nd'.score = none ∧ rank nd'.value < N := by
      intro j' hj'
      obtain ⟨nd', h1, h2, h3, h4⟩ := hfr j' (List.mem_cons_of_mem _ hj')
      refine ⟨nd', ?_, h2, h3, h4⟩
      rw [hpres1 j' (get?_some_lt h1) (fun he => hjr (he ▸ hj'))]
      exact h1
    obtain ⟨k2, heap2, hst2, hlen2, hpres2, hres2⟩ := ihr hnd' heap1 stack cur hside
    refine ⟨k1 + k2, heap2, ?_, le_trans hlen1 hlen2, ?_, ?_⟩
    · exact stepsN_trans hst1 hst2
    · intro j'' hj1 hj2
      rw [hpres2 j'' (lt_of_lt_of_le hj1 hlen1) (fun hm => hj2 (List.mem_cons_of_mem _ hm))]
      exact hpres1 j'' hj1 (fun he => hj2 (he ▸ List.mem_cons_self j r'))
    · intro jj hjj nd0 hnd0
      rcases List.mem_cons.mp hjj with rfl | hmem
      · have : nd0 = nd := by rw [hnd1] at hnd0; exact (Option.some.injEq .. ▸ hnd0).symm
        subst this
        refine ⟨ch1, ?_⟩
        rw [hpres2 jj (lt_of_lt_of_le hjlt hlen1) hjr]
        exact hres1
      · have h1 : heap1.get? jj = some nd0 := by
          rw [hpres1 jj (get?_some_lt hnd0) (fun he => hjr (he ▸ hmem))]
          exact hnd0
        exact hres2 jj hmem nd0 h1

lemma iter_node {S M : Type} (g : GameCtx S M) (rank : S → Nat)
    (hrank : ∀ s m, m ∈ g.get_possible_moves s → rank (g.make_move s m) < rank s)
    (hover : ∀ s, g.get_possible_moves s = [] → g.is_over s = true) :
    ∀ (N : Nat) (s : S), rank s < N →
      ∀ (heap : List (Tree S)) (rest : List Nat) (cur : S) (id : Nat) (node : Tree S),
        heap.get? id = some node → node.value = s → node.children = [] →
        node.score = none → NodeRun g rank hrank heap rest cur id s := by
  intro N
  induction N with
  | zero => intro s h; omega
  | succ N ihN =>
    intro s hs heap rest cur id node hn hv hc hsc
    subst hv
    by_cases ho : g.is_over node.value = true
    · -- terminal node: one step resolves it by the terminal rule
      have hw : terminal_score g node.value = scoreP g rank hrank node.value := by
        rw [scoreP_eq, if_pos ho]
      refine ⟨1, heap.set id { node with score := some (terminal_score g node.value) },
        ?_, ?_, ?_, node.children, ?_⟩
      · exact StepsN.step (by simp) (step_i_terminal g rfl hn ho) (.refl _)
      · rw [List.length_set]
      · intro j hj hne
        exact List.get?_set_ne _ heap (Ne.symm hne)
      · rw [List.get?_set_eq, hn, hw]
        rfl
    · -- internal node: expand, resolve all children, then fold the maximum
      have ho' : g.is_over node.value = false := by
        simp only [Bool.not_eq_true] at ho
        exact ho
      have hid_lt : id < heap.length := get?_some_lt hn
      have hchild : ∀ t ∈ successors g node.value, rank t < N := by
        intro t ht
        rw [successors] at ht
        obtain ⟨m, hm, rfl⟩ := List.mem_map.mp ht
        have := hrank node.value m hm
        omega
      have hsne : successors g node.value ≠ [] :=
        successors_ne_nil g hover (by simp [ho'])
      -- abbreviations
      set states := successors g node.value with hstates
      set ids := expandIds heap states with hids
      set nd1 : Tree S := { node with children := ids } with hnd1def
      set heap1 : List (Tree S) := heap.set id nd1 ++ freshNodes states with hheap1
      have hlen_set : (heap.set id nd1).length = heap.length := List.length_set ..
      have hheap1len : heap1.length = heap.length + states.length := by
        rw [hheap1, List.length_append, hlen_set, freshNodes, List.length_map]
      have hfresh : ∀ (i : Nat) (hi : i < states.length),
          heap1.get? (i + heap.length) = some ⟨states.get ⟨i, hi⟩, [], none⟩ := by
        intro i hi
        rw [hheap1, List.get?_append_right (by rw [hlen_set]; omega)]
        rw [hlen_set, Nat.add_sub_cancel, freshNodes, List.get?_map,
          List.get?_eq_get hi]
        rfl
      have hid_notin : id ∉ ids := fun hm => absurd (expandIds_ge hm) (by omega)
      have hstep1 : step_i g ⟨heap, id :: rest, cur⟩ = .ok ⟨heap1, ids.reverse ++ id :: rest, cur⟩ :=
        step_i_expand g rfl hn ho' hc
      have hcond : ∀ j ∈ ids.reverse, ∃ nd', heap1.get? j = some nd' ∧
          nd'.children = [] ∧ nd'.score = none ∧ rank nd'.value < N := by
        intro j hj
        rw [List.mem_reverse] at hj
        obtain ⟨i, hi, rfl⟩ := mem_expandIds.mp hj
        refine ⟨⟨states.get ⟨i, hi⟩, [], none⟩, hfresh i hi, rfl, rfl, ?_⟩
        exact hchild _ (List.get_mem states i hi)
      obtain ⟨k2, heap2, hst2, hlen2, hpres2, hres2⟩ :=
        iter_children g rank hrank (fun s hsN => ihN s hsN) ids.reverse
          (List.nodup_reverse.mpr (expandIds_nodup heap states)) heap1
          (id :: rest) cur hcond
      have hheap1_id : heap1.get? id = some nd1 := by
        rw [hheap1, List.get?_append (by omega), List.get?_set_eq, hn]
        rfl
      have hheap2_id : heap2.get? id = some nd1 := by
        rw [hpres2 id (by omega) (by rw [List.mem_reverse]; exact hid_notin)]
        exact hheap1_id
      have hids_ne : ids ≠ [] := by
        intro hnil
        have hlen : ids.length = states.length := expandIds_length heap states
        rw [hnil] at hlen
        exact hsne (List.length_eq_zero.mp hlen.symm)
      -- the children scores read back when the parent is revisited
      have hg2 : getScores heap2 ids =
          some (states.map (fun t => scoreP g rank hrank t)) := by
        rw [hids, expandIds]
        apply getScores_expand
        intro i hi
        have hmem : (i + heap.length) ∈ ids.reverse := by
          rw [List.mem_reverse]
          exact mem_expandIds.mpr ⟨i, hi, rfl⟩
        obtain ⟨ch', hch'⟩ := hres2 _ hmem _ (hfresh i hi)
        exact ⟨ch', hch'⟩
      obtain ⟨a, ha⟩ := int_max?_of_ne_nil
        (l := ((states.map (fun t => scoreP g rank hrank t)).map (fun v => -v)))
        (by simp [hsne])
      have hmapmap : (states.map (fun t => scoreP g rank hrank t)).map (fun v => -v) =
          states.map (fun t => -(scoreP g rank hrank t)) := by
        rw [List.map_map]
        rfl
      have ha' : (states.map (fun t => -(scoreP g rank hrank t))).max? = some a := by
        rw [← hmapmap]
        exact ha
      have hval : scoreP g rank hrank node.value = a := by
        rw [scoreP_eq, if_neg ho, ← hstates, ha']
        rfl
      have hstep3 : step_i g ⟨heap2, id :: rest, cur⟩ =
          .ok ⟨heap2.set id { nd1 with score := some a }, rest, cur⟩ :=
        step_i_resolve g rfl hheap2_id ho' (by exact hids_ne) hg2 ha
      refine ⟨(k2 + 1) + 1, heap2.set id { nd1 with score := some a },
        ?_, ?_, ?_, ids, ?_⟩
      · refine StepsN.step (by simp) hstep1 ?_
        exact stepsN_trans hst2 (StepsN.step (by simp) hstep3 (.refl _))
      · rw [List.length_set]
        omega
      · intro j hj hne
        have hjnotin : j ∉ ids.reverse := by
          rw [List.mem_reverse]
          exact fun hm => absurd (expandIds_ge hm) (by omega)
        rw [List.get?_set_ne _ _ (Ne.symm hne)]
        rw [hpres2 j (by omega) hjnotin]
        rw [hheap1, List.get?_append (by rw [hlen_set]; omega)]
        exact List.get?_set_ne _ heap (Ne.symm hne)
      · rw [List.get?_set_eq, hheap2_id, hval]
        rfl

lemma state_score_i_ok {S M : Type} (g : GameCtx S M) (rank : S → Nat)
    (hrank : ∀ s m, m ∈ g.get_possible_moves s → rank (g.make_move s m) < rank s)
    (hover : ∀ s, g.get_possible_moves s = [] → g.is_over s = true) (cur s : S) :
    ∃ F, ∀ fuel, F ≤ fuel →
      state_score_i g fuel cur s = .ok (scoreP g rank hrank s, cur) := by
  obtain ⟨k, heap', hsteps, _, _, ch, hres⟩ :=
    iter_node g rank hrank hover (rank s + 1) s (by omega) [⟨s, [], none⟩] [] cur 0
      ⟨s, [], none⟩ rfl rfl rfl rfl
  refine ⟨k, fun fuel hf => ?_⟩
  have hrun : run_i g fuel (initIter cur s) = .ok ⟨heap', [], cur⟩ := by
    rw [show initIter cur s = (⟨[⟨s, [], none⟩], [0], cur⟩ : IterState S) from rfl]
    rw [run_i_of_stepsN hsteps fuel hf]
    exact run_i_nil g _ _ rfl
  unfold state_score_i
  rw [hrun]
  simp only [hres]

/-- C1: for every game context satisfying the game contract — a measure `rank` strictly
decreasing along every legal move (finite game tree) and `is_over` true on every
zero-move state — the recursive evaluator `state_score_r` and the iterative evaluator
`state_score_i` return the same score on every state, for every large enough fuel. -/
theorem recursive_iterative_evaluators_agree {S M : Type} (g : GameCtx S M)
    (rank : S → Nat)
    (hrank : ∀ s m, m ∈ g.get_possible_moves s → rank (g.make_move s m) < rank s)
    (hover : ∀ s, g.get_possible_moves s = [] → g.is_over s = true) (cur s : S) :
    ∃ (v : Int) (F : Nat), ∀ fuel, F ≤ fuel →
      state_score_r g fuel cur s = .ok (v, cur) ∧
      state_score_i g fuel cur s = .ok (v, cur) := by
  obtain ⟨F, hF⟩ := state_score_i_ok g rank hrank hover cur s
  refine ⟨scoreP g rank hrank s, max (rank s + 1) F, fun fuel hf => ⟨?_, ?_⟩⟩
  · exact state_score_r_ok g rank hrank hover fuel s (by omega) cur
  · exact hF fuel (by omega)

/-- Witness for C1: on the toy game both evaluators agree on state `2` (with focus `7`
restored). -/
theorem recursive_iterative_evaluators_agree_witness :
    ∃ (v : Int) (F : Nat), ∀ fuel, F ≤ fuel →
      state_score_r toyGame fuel 7 2 = .ok (v, 7) ∧
      state_score_i toyGame fuel 7 2 = .ok (v, 7) :=
  recursive_iterative_evaluators_agree toyGame (fun s => s)
    (by
      intro s m hm
      by_cases h0 : s = 0
      · simp [toyGame, h0] at hm
      · simp only [toyGame] at hm ⊢
        omega)
    (by
      intro s hm
      by_cases h0 : s = 0
      · simp [toyGame, h0]
      · simp [toyGame, h0] at hm)
    7 2

/-- C5: with the contract (rank measure plus "no moves implies over") both evaluators
terminate with a score; on a zero-move state that `is_over` rejects, the iterative
evaluator runs out of any amount of fuel (it re-expands the node forever) and the
recursive evaluator hits `max` of an empty sequence. -/
theorem evaluators_termination_contract {S M : Type} (g : GameCtx S M) :
    (∀ (rank : S → Nat),
      (∀ s m, m ∈ g.get_possible_moves s → rank (g.make_move s m) < rank s) →
      (∀ s, g.get_possible_moves s = [] → g.is_over s = true) →
      ∀ cur s, ∃ (v : Int) (F : Nat), ∀ fuel, F ≤ fuel →
        state_score_r g fuel cur s = .ok (v, cur) ∧
        state_score_i g fuel cur s = .ok (v, cur)) ∧
    (∀ cur s, g.get_possible_moves s = [] → g.is_over s = false →
      (∀ fuel, state_score_i g fuel cur s = .error .fuelOut) ∧
      (∀ fuel, state_score_r g (fuel + 1) cur s = .error .emptyMax)) := by
  constructor
  · intro rank hrank hover cur s
    obtain ⟨F, hF⟩ := state_score_i_ok g rank hrank hover cur s
    refine ⟨scoreP g rank hrank s, max (rank s + 1) F, fun fuel hf => ⟨?_, ?_⟩⟩
    · exact state_score_r_ok g rank hrank hover fuel s (by omega) cur
    · exact hF fuel (by omega)
  · intro cur s hmoves hov
    have hsucc : successors g s = [] := by rw [successors, hmoves]; rfl
    constructor
    · have hstep : step_i g (initIter cur s) = .ok (initIter cur s) := by
        rw [step_i_expand g (σ := initIter cur s) rfl rfl hov rfl]
        simp [initIter, hsucc, expandIds, freshNodes]
      have hrun : ∀ fuel, run_i g fuel (initIter cur s) = .error .fuelOut := by
        intro fuel
        induction fuel with
        | zero =>
          rw [run_i, if_neg (by simp [initIter])]
        | succ f ih =>
          rw [run_i, if_neg (by simp [initIter])]
          simp only [hstep]
          exact ih
      intro fuel
      unfold state_score_i
      rw [hrun fuel]
    · intro fuel
      simp only [state_score_r, hov, Bool.false_eq_true, if_false, hsucc, neg_scores]
      rfl

/-- Witness for C5: the toy game (contract satisfied) terminates on state `2`; the bad
game's zero-move non-over state `0` exhausts any fuel iteratively and raises on `max` of
an empty list recursively. -/
theorem evaluators_termination_contract_witness :
    (∃ (v : Int) (F : Nat), ∀ fuel, F ≤ fuel →
      state_score_r toyGame fuel 7 2 = .ok (v, 7) ∧
      state_score_i toyGame fuel 7 2 = .ok (v, 7)) ∧
    state_score_i badGame 5 7 0 = .error .fuelOut ∧
    state_score_r badGame (5 + 1) 7 0 = .error .emptyMax :=
  ⟨(evaluators_termination_contract toyGame).1 (fun s => s)
    (by
      intro s m hm
      by_cases h0 : s = 0
      · simp [toyGame, h0] at hm
      · simp only [toyGame] at hm ⊢
        omega)
    (by
      intro s hm
      by_cases h0 : s = 0
      · simp [toyGame, h0]
      · simp [toyGame, h0] at hm)
    7 2,
   ((evaluators_termination_contract badGame).2 7 0 (by decide) (by decide)).1 5,
   ((evaluators_termination_contract badGame).2 7 0 (by decide) (by decide)).2 5⟩

lemma indexOf_spec {l : List Int} {a : Int} (h : a ∈ l) :
    l.get? (l.indexOf a) = some a ∧ ∀ j, j < l.indexOf a → l.get? j ≠ some a := by
  induction l with
  | nil => cases h
  | cons b l ih =>
    by_cases hb : b = a
    · subst hb
      rw [List.indexOf_cons]
      simp
    · have hb' : (b == a) = false := by simp [hb]
      rw [List.indexOf_cons, hb']
      simp only [cond_false]
      have hmem : a ∈ l := by
        rcases List.mem_cons.mp h with h1 | h1
        · exact absurd h1.symm hb
        · exact h1
      obtain ⟨h1, h2⟩ := ih hmem
      refine ⟨h1, ?_⟩
      intro j hj
      cases j with
      | zero => simp [hb]
      | succ j' =>
        simp only [List.get?_cons_succ]
        exact h2 j' (by omega)

lemma scores_i_ok {S M : Type} (g : GameCtx S M) (rank : S → Nat)
    (hrank : ∀ s m, m ∈ g.get_possible_moves s → rank (g.make_move s m) < rank s)
    (hover : ∀ s, g.get_possible_moves s = [] → g.is_over s = true) :
    ∀ (l : List S) (cur : S), ∃ F, ∀ fuel, F ≤ fuel →
      scores_i g fuel cur l = .ok (l.map (fun t => scoreP g rank hrank t), cur) := by
  intro l cur
  induction l with
  | nil => exact ⟨0, fun _ _ => rfl⟩
  | cons t rest ih =>
    obtain ⟨F1, h1⟩ := state_score_i_ok g rank hrank hover cur t
    obtain ⟨F2, h2⟩ := ih
    refine ⟨max F1 F2, fun fuel hf => ?_⟩
    simp only [scores_i, h1 fuel (by omega), h2 fuel (by omega), List.map_cons]

/-- C3: on a contract-satisfying game whose current state has at least one legal move,
`recursive_minimax_strategy` and `iterative_minimax_strategy` return the same move `m`:
a legal move (position `i` of the move list) whose negated successor score is maximal,
every earlier move having a strictly smaller negated successor score; the last conjunct
ties the score function to the recursive evaluator itself. -/
theorem minimax_strategies_optimal {S M : Type} (g : GameCtx S M) (rank : S → Nat)
    (hrank : ∀ s m, m ∈ g.get_possible_moves s → rank (g.make_move s m) < rank s)
    (hover : ∀ s, g.get_possible_moves s = [] → g.is_over s = true) (cur : S)
    (hmv : g.get_possible_moves cur ≠ []) :
    ∃ (m : M) (i : Nat) (F : Nat), ∀ fuel, F ≤ fuel →
      recursive_minimax_strategy g fuel cur = .ok (m, cur) ∧
      iterative_minimax_strategy g fuel cur = .ok (m, cur) ∧
      (g.get_possible_moves cur).get? i = some m ∧
      (∀ m' ∈ g.get_possible_moves cur,
        -(scoreP g rank hrank (g.make_move cur m')) ≤
          -(scoreP g rank hrank (g.make_move cur m))) ∧
      (∀ j m', j < i → (g.get_possible_moves cur).get? j = some m' →
        -(scoreP g rank hrank (g.make_move cur m')) <
          -(scoreP g rank hrank (g.make_move cur m))) ∧
      (∀ m' ∈ g.get_possible_moves cur, ∀ c,
        state_score_r g fuel c (g.make_move cur m') =
          .ok (scoreP g rank hrank (g.make_move cur m'), c)) := by
  classical
  set moves := g.get_possible_moves cur with hmoves
  set negs := moves.map (fun m => -(scoreP g rank hrank (g.make_move cur m))) with hnegs
  have hnegs_ne : negs ≠ [] := by
    rw [hnegs]
    simp [hmv]
  obtain ⟨mx, hmx⟩ := int_max?_of_ne_nil hnegs_ne
  obtain ⟨hmx_mem, hmx_ub⟩ := int_max?_spec hmx
  obtain ⟨hidx_get, hidx_first⟩ := indexOf_spec hmx_mem
  have hidx_lt : negs.indexOf mx < moves.length := by
    have h := List.indexOf_lt_length.mpr hmx_mem
    rw [hnegs, List.length_map] at h
    exact h
  obtain ⟨m, hm⟩ : ∃ m, moves.get? (negs.indexOf mx) = some m := by
    cases hg : moves.get? (negs.indexOf mx) with
    | none => rw [List.get?_eq_none] at hg; omega
    | some m => exact ⟨m, rfl⟩
  have hm_val : -(scoreP g rank hrank (g.make_move cur m)) = mx := by
    have : negs.get? (negs.indexOf mx) =
        some (-(scoreP g rank hrank (g.make_move cur m))) := by
      rw [hnegs, List.get?_map, hm]
      rfl
    rw [this] at hidx_get
    exact (Option.some.injEq .. ▸ hidx_get)
  obtain ⟨F2, hF2⟩ := scores_i_ok g rank hrank hover (moves.map (g.make_move cur)) cur
  refine ⟨m, negs.indexOf mx, max (rank cur + 1) F2, fun fuel hf => ?_⟩
  have hchild_fuel : ∀ t ∈ moves.map (g.make_move cur), rank t < fuel := by
    intro t ht
    obtain ⟨m', hm', rfl⟩ := List.mem_map.mp ht
    have := hrank cur m' hm'
    omega
  have hrec_child : ∀ t ∈ moves.map (g.make_move cur), ∀ c,
      state_score_r g fuel c t = .ok (scoreP g rank hrank t, c) := by
    intro t ht c
    exact state_score_r_ok g rank hrank hover fuel t (hchild_fuel t ht) c
  have hns : neg_scores (fun c s => state_score_r g fuel c s) cur
      (moves.map (g.make_move cur)) =
      .ok ((moves.map (g.make_move cur)).map
        (fun t => -(scoreP g rank hrank t)), cur) :=
    neg_scores_ok (moves.map (g.make_move cur)) (fun t ht c => hrec_child t ht c) cur
  have hmapmap : (moves.map (g.make_move cur)).map
      (fun t => -(scoreP g rank hrank t)) = negs := by
    rw [hnegs, List.map_map]
    rfl
  have hmapmap2 : (moves.map (g.make_move cur)).map
      (fun t => scoreP g rank hrank t) = moves.map
        (fun m => scoreP g rank hrank (g.make_move cur m)) := by
    rw [List.map_map]
    rfl
  have hnegmap : (moves.map (fun m => scoreP g rank hrank (g.make_move cur m))).map
      (fun s => -s) = negs := by
    rw [hnegs, List.map_map]
    rfl
  refine ⟨?_, ?_, hm, ?_, ?_, fun m' hm' c => hrec_child _ (List.mem_map_of_mem _ hm') c⟩
  · simp only [recursive_minimax_strategy]
    rw [← hmoves, hns, hmapmap]
    simp only [hmx, hm]
  · simp only [iterative_minimax_strategy]
    rw [← hmoves, hF2 fuel (by omega), hmapmap2]
    simp only [hnegmap, hmx, hm]
  · intro m' hm'
    rw [hm_val]
    exact hmx_ub _ (by rw [hnegs]; exact List.mem_map_of_mem _ hm')
  · intro j m' hj hjm
    have hjneg : negs.get? j = some (-(scoreP g rank hrank (g.make_move cur m'))) := by
      rw [hnegs, List.get?_map, hjm]
      rfl
    have hne := hidx_first j hj
    rw [hjneg] at hne
    have hle : -(scoreP g rank hrank (g.make_move cur m')) ≤ mx :=
      hmx_ub _ (List.get?_mem hjneg)
    rw [hm_val]
    rcases lt_or_eq_of_le hle with h | h
    · exact h
    · exact absurd (by rw [h]) hne

lemma toyRank : ∀ (s : Nat) (m : Unit), m ∈ toyGame.get_possible_moves s →
    (fun s => s) (toyGame.make_move s m) < (fun s => s) s := by
  intro s m hm
  by_cases h0 : s = 0
  · simp [toyGame, h0] at hm
  · simp only [toyGame] at hm ⊢
    omega

lemma toyOver : ∀ s, toyGame.get_possible_moves s = [] → toyGame.is_over s = true := by
  intro s hm
  by_cases h0 : s = 0
  · simp [toyGame, h0]
  · simp [toyGame, h0] at hm

/-- Witness for C3: both strategies pick the single legal move of the toy game at
state `2`. -/
theorem minimax_strategies_optimal_witness :
    ∃ (m : Unit) (i : Nat) (F : Nat), ∀ fuel, F ≤ fuel →
      recursive_minimax_strategy toyGame fuel 2 = .ok (m, 2) ∧
      iterative_minimax_strategy toyGame fuel 2 = .ok (m, 2) ∧
      (toyGame.get_possible_moves 2).get? i = some m ∧
      (∀ m' ∈ toyGame.get_possible_moves 2,
        -(scoreP toyGame (fun s => s) toyRank (toyGame.make_move 2 m')) ≤
          -(scoreP toyGame (fun s => s) toyRank (toyGame.make_move 2 m))) ∧
      (∀ j m', j < i → (toyGame.get_possible_moves 2).get? j = some m' →
        -(scoreP toyGame (fun s => s) toyRank (toyGame.make_move 2 m')) <
          -(scoreP toyGame (fun s => s) toyRank (toyGame.make_move 2 m))) ∧
      (∀ m' ∈ toyGame.get_possible_moves 2, ∀ c,
        state_score_r toyGame fuel c (toyGame.make_move 2 m') =
          .ok (scoreP toyGame (fun s => s) toyRank (toyGame.make_move 2 m'), c)) :=
  minimax_strategies_optimal toyGame (fun s => s) toyRank toyOver 2 (by decide)

lemma get?_set_self {α : Type} {l : List α} {n : Nat} {a b : α} (h : l.get? n = some a) :
    (l.set n b).get? n = some b := by
  rw [List.get?_set_eq, h]
  rfl

lemma inv_init {S : Type} (cur s : S) : Inv (initIter cur s) := by
  refine ⟨?_, ?_, ?_, ?_, ?_⟩
  · intro id hid
    simp only [initIter, List.mem_singleton] at hid
    subst hid
    simp [initIter]
  · intro nd hnd j hj
    simp only [initIter, List.mem_singleton] at hnd
    subst hnd
    cases hj
  · intro k id hk nd hnd j hj
    simp only [initIter] at hk hnd
    cases k with
    | zero =>
      rw [List.get?_cons_zero] at hk
      cases hk
      rw [show ([⟨s, [], none⟩] : List (Tree S)).get? 0 = some ⟨s, [], none⟩ from rfl] at hnd
      cases hnd
      cases hj
    | succ k' => cases hk
  · left
    simp [initIter]
  · simp [initIter]

lemma inv_set_score {S : Type} {heap : List (Tree S)} {id : Nat} {rest : List Nat}
    {cur cur' : S} {node : Tree S} {v : Int}
    (hinv : Inv (⟨heap, id :: rest, cur⟩ : IterState S))
    (hn : heap.get? id = some node) :
    Inv (⟨heap.set id { node with score := some v }, rest, cur'⟩ : IterState S) := by
  obtain ⟨h1, h2, h3, h4, h5⟩ := hinv
  refine ⟨?_, ?_, ?_, ?_, ?_⟩
  · intro i hi
    rw [List.length_set]
    exact h1 i (List.mem_cons_of_mem _ hi)
  · intro nd hnd j hj
    rw [List.length_set]
    rcases List.mem_or_eq_of_mem_set hnd with h | h
    · exact h2 nd h j hj
    · subst h
      exact h2 node (List.get?_mem hn) j hj
  · intro k id0 hk nd0 hnd0 j hj
    have hk' : (id :: rest).get? (k + 1) = some id0 := by
      rw [List.get?_cons_succ]
      exact hk
    have hresolved : ∀ jj, (∃ t, heap.get? jj = some t ∧ t.score ≠ none) →
        ∃ t, (heap.set id { node with score := some v }).get? jj = some t ∧
          t.score ≠ none := by
      intro jj ⟨t, ht, hts⟩
      by_cases hje : id = jj
      · subst hje
        exact ⟨{ node with score := some v }, get?_set_self hn, by simp⟩
      · exact ⟨t, by rw [List.get?_set_ne _ _ hje]; exact ht, hts⟩
    have hnd0' : ∀ j' ∈ nd0.children,
        (∃ t, heap.get? j' = some t ∧ t.score ≠ none) ∨
          ∃ kk, kk < k + 1 ∧ (id :: rest).get? kk = some j' := by
      by_cases hid0 : id = id0
      · subst hid0
        rw [get?_set_self hn] at hnd0
        cases hnd0
        intro j' hj'
        exact h3 (k + 1) id hk' node hn j' hj'
      · rw [List.get?_set_ne _ _ hid0] at hnd0
        intro j' hj'
        exact h3 (k + 1) id0 hk' nd0 hnd0 j' hj'
    rcases hnd0' j hj with h | ⟨kk, hkk, hkkj⟩
    · exact Or.inl (hresolved j h)
    · cases kk with
      | zero =>
        rw [List.get?_cons_zero] at hkkj
        cases hkkj
        left
        exact ⟨{ node with score := some v }, get?_set_self hn, by simp⟩
      | succ kk' =>
        rw [List.get?_cons_succ] at hkkj
        exact Or.inr ⟨kk', by omega, hkkj⟩
  · rcases h4 with h | ⟨nd0, hnd0, hs0⟩
    · rcases List.mem_cons.mp h with h0 | h0
      · subst h0
        right
        exact ⟨{ node with score := some v }, get?_set_self hn, by simp⟩
      · exact Or.inl h0
    · right
      by_cases hid0 : id = 0
      · subst hid0
        exact ⟨{ node with score := some v }, get?_set_self hn, by simp⟩
      · exact ⟨nd0, by rw [List.get?_set_ne _ _ hid0]; exact hnd0, hs0⟩
  · rw [List.length_set]
    exact h5

lemma expand_get_old {S : Type} {heap : List (Tree S)} {id : Nat} {nd1 : Tree S}
    {states : List S} {j : Nat} (hj : j < heap.length) (hne : j ≠ id) :
    (heap.set id nd1 ++ freshNodes states).get? j = heap.get? j := by
  rw [List.get?_append (by rw [List.length_set]; exact hj)]
  exact List.get?_set_ne _ heap (fun h => hne h.symm)

lemma expand_get_id {S : Type} {heap : List (Tree S)} {id : Nat} {nd1 node : Tree S}
    {states : List S} (hn : heap.get? id = some node) :
    (heap.set id nd1 ++ freshNodes states).get? id = some nd1 := by
  rw [List.get?_append (by rw [List.length_set]; exact get?_some_lt hn)]
  exact get?_set_self hn

lemma expand_get_fresh {S : Type} {heap : List (Tree S)} {id : Nat} {nd1 : Tree S}
    {states : List S} {j : Nat} (hj : j ∈ expandIds heap states) :
    ∃ s, (heap.set id nd1 ++ freshNodes states).get? j = some ⟨s, [], none⟩ := by
  obtain ⟨i, hi, rfl⟩ := mem_expandIds.mp hj
  refine ⟨states.get ⟨i, hi⟩, ?_⟩
  rw [List.get?_append_right (by rw [List.length_set]; omega), List.length_set,
    Nat.add_sub_cancel, freshNodes, List.get?_map, List.get?_eq_get hi]
  rfl

lemma inv_expand {S : Type} {heap : List (Tree S)} {id : Nat} {rest : List Nat}
    {cur cur' : S} {node : Tree S} {states : List S}
    (hinv : Inv (⟨heap, id :: rest, cur⟩ : IterState S))
    (hn : heap.get? id = some node) :
    Inv (⟨heap.set id { node with children := expandIds heap states } ++ freshNodes states,
         (expandIds heap states).reverse ++ id :: rest, cur'⟩ : IterState S) := by
  obtain ⟨h1, h2, h3, h4, h5⟩ := hinv
  dsimp only at h1 h2 h3 h4 h5
  have hid_lt : id < heap.length := get?_some_lt hn
  have hlen : (heap.set id { node with children := expandIds heap states } ++
      freshNodes states).length = heap.length + states.length := by
    rw [List.length_append, List.length_set, freshNodes, List.length_map]
  have hrevlen : (expandIds heap states).reverse.length = states.length := by
    rw [List.length_reverse, expandIds_length]
  refine ⟨?_, ?_, ?_, ?_, ?_⟩
  · intro i hi
    rw [hlen]
    rcases List.mem_append.mp hi with h | h
    · rw [List.mem_reverse] at h
      obtain ⟨i', hi', rfl⟩ := mem_expandIds.mp h
      omega
    · have := h1 i h
      omega
  · intro nd hnd j hj
    rw [hlen]
    rcases List.mem_append.mp hnd with h | h
    · rcases List.mem_or_eq_of_mem_set h with h' | h'
      · have := h2 nd h' j hj
        omega
      · subst h'
        simp only at hj
        obtain ⟨i', hi', rfl⟩ := mem_expandIds.mp hj
        omega
    · rw [freshNodes] at h
      obtain ⟨s', _, rfl⟩ := List.mem_map.mp h
      cases hj
  · intro k id0 hk nd0 hnd0 j hj
    by_cases hkfresh : k < (expandIds heap states).reverse.length
    · -- a fresh child node: no children, nothing to show
      have hmem : id0 ∈ expandIds heap states := by
        rw [← List.mem_reverse]
        rw [List.get?_append hkfresh] at hk
        exact List.get?_mem hk
      obtain ⟨s', hs'⟩ := @expand_get_fresh S heap id
        { node with children := expandIds heap states } states id0 hmem
      rw [hs'] at hnd0
      cases hnd0
      cases hj
    · -- an entry of the old stack (or the re-pushed node itself)
      push_neg at hkfresh
      rw [List.get?_append_right hkfresh] at hk
      have habove : ∀ j', j' ∈ expandIds heap states →
          ∃ kk, kk < k ∧ ((expandIds heap states).reverse ++ id :: rest).get? kk = some j' := by
        intro j' hj'
        rw [← List.mem_reverse, List.mem_iff_get?] at hj'
        obtain ⟨kk, hkk⟩ := hj'
        have hkklt : kk < (expandIds heap states).reverse.length := get?_some_lt hkk
        refine ⟨kk, ?_, ?_⟩
        · rcases Nat.eq_or_lt_of_le hkfresh with he | hlt
          · rw [← he] at hk
            simp only [Nat.sub_self, List.get?_cons_zero] at hk
            omega
          · omega
        · rw [List.get?_append hkklt]
          exact hkk
      cases hk0 : k - (expandIds heap states).reverse.length with
      | zero =>
        -- the re-pushed expanded node itself: all children sit above it
        rw [hk0, List.get?_cons_zero] at hk
        cases hk
        rw [expand_get_id hn] at hnd0
        cases hnd0
        simp only at hj
        exact Or.inr (habove j hj)
      | succ k' =>
        -- an entry of the old tail: use the old invariant at position k' + 1
        rw [hk0, List.get?_cons_succ] at hk
        have hkold : (id :: rest).get? (k' + 1) = some id0 := by
          rw [List.get?_cons_succ]
          exact hk
        have hid0_lt : id0 < heap.length := h1 id0 (List.mem_cons_of_mem _ (List.get?_mem hk))
        by_cases hid0e : id0 = id
        · -- a deeper occurrence of the expanded node: children are the fresh ids
          subst hid0e
          rw [expand_get_id hn] at hnd0
          cases hnd0
          simp only at hj
          exact Or.inr (habove j hj)
        · rw [expand_get_old hid0_lt hid0e] at hnd0
          have hold := h3 (k' + 1) id0 hkold nd0 hnd0 j hj
          rcases hold with ⟨t, ht, hts⟩ | ⟨kk, hkk, hkkj⟩
          · left
            have hjlt : j < heap.length := get?_some_lt ht
            by_cases hje : j = id
            · subst hje
              rw [hn] at ht
              cases ht
              exact ⟨{ node with children := expandIds heap states },
                expand_get_id hn, hts⟩
            · exact ⟨t, by rw [expand_get_old hjlt hje]; exact ht, hts⟩
          · cases hkk0 : kk with
            | zero =>
              subst hkk0
              rw [List.get?_cons_zero] at hkkj
              cases hkkj
              refine Or.inr ⟨(expandIds heap states).reverse.length, ?_, ?_⟩
              · omega
              · rw [List.get?_append_right (le_refl _), Nat.sub_self,
                  List.get?_cons_zero]
            | succ kk' =>
              subst hkk0
              rw [List.get?_cons_succ] at hkkj
              refine Or.inr ⟨(expandIds heap states).reverse.length + (kk' + 1), ?_, ?_⟩
              · omega
              · rw [List.get?_append_right (by omega), Nat.add_sub_cancel_left,
                  List.get?_cons_succ]
                exact hkkj
  · rcases h4 with h | ⟨nd0, hnd0, hs0⟩
    · left
      rcases List.mem_cons.mp h with h0 | h0
      · subst h0
        exact List.mem_append.mpr (Or.inr (List.mem_cons_self _ _))
      · exact List.mem_append.mpr (Or.inr (List.mem_cons_of_mem _ h0))
    · right
      by_cases h0e : 0 = id
      · subst h0e
        rw [hn] at hnd0
        cases hnd0
        exact ⟨{ node with children := expandIds heap states }, expand_get_id hn, hs0⟩
      · exact ⟨nd0, by rw [expand_get_old h5 h0e]; exact hnd0, hs0⟩
  · rw [hlen]
    omega

lemma inv_step {S M : Type} (g : GameCtx S M) {heap : List (Tree S)} {id : Nat}
    {rest : List Nat} {cur : S} {σ' : IterState S}
    (hinv : Inv (⟨heap, id :: rest, cur⟩ : IterState S))
    (hstep : step_i g ⟨heap, id :: rest, cur⟩ = .ok σ') : Inv σ' := by
  unfold step_i at hstep
  simp only at hstep
  cases hn : heap.get? id with
  | none => simp only [hn] at hstep; exact Except.noConfusion hstep
  | some node =>
    simp only [hn] at hstep
    by_cases ho : g.is_over node.value
    · rw [if_pos ho, terminal_step_eq] at hstep
      simp only [Except.ok.injEq] at hstep
      rw [← hstep]
      exact inv_set_score hinv hn
    · rw [if_neg ho] at hstep
      by_cases hc : node.children = []
      · rw [if_pos hc] at hstep
        simp only [Except.ok.injEq] at hstep
        rw [← hstep]
        exact inv_expand hinv hn
      · rw [if_neg hc] at hstep
        cases hg : getScores heap node.children with
        | none => simp only [hg] at hstep; exact Except.noConfusion hstep
        | some l =>
          simp only [hg] at hstep
          cases hm : (l.map (fun v => -v)).max? with
          | none => simp only [hm] at hstep; exact Except.noConfusion hstep
          | some v =>
            simp only [hm, Except.ok.injEq] at hstep
            rw [← hstep]
            exact inv_set_score hinv hn

lemma inv_stepsN {S M : Type} {g : GameCtx S M} {n : Nat} {σ σ' : IterState S}
    (h : StepsN g n σ σ') (hinv : Inv σ) : Inv σ' := by
  induction h with
  | refl σ => exact hinv
  | @step τ τ' τ'' k hne hstep hs ih =>
    apply ih
    obtain ⟨heap, stack, cur⟩ := τ
    cases stack with
    | nil => simp at hne
    | cons id rest => exact inv_step g hinv hstep

lemma run_i_stepsN {S M : Type} (g : GameCtx S M) :
    ∀ (fuel : Nat) (σ σ' : IterState S), run_i g fuel σ = .ok σ' →
      (∃ n, StepsN g n σ σ') ∧ σ'.stack = [] := by
  intro fuel
  induction fuel with
  | zero =>
    intro σ σ' h
    rw [run_i] at h
    by_cases hs : σ.stack = []
    · rw [if_pos hs] at h
      simp only [Except.ok.injEq] at h
      subst h
      exact ⟨⟨0, .refl _⟩, hs⟩
    · rw [if_neg hs] at h
      exact Except.noConfusion h
  | succ f ih =>
    intro σ σ' h
    rw [run_i] at h
    by_cases hs : σ.stack = []
    · rw [if_pos hs] at h
      simp only [Except.ok.injEq] at h
      subst h
      exact ⟨⟨0, .refl _⟩, hs⟩
    · rw [if_neg hs] at h
      cases hst : step_i g σ with
      | error e => simp only [hst] at h; exact Except.noConfusion h
      | ok σ1 =>
        simp only [hst] at h
        obtain ⟨⟨n, hn⟩, hnil⟩ := ih σ1 σ' h
        exact ⟨⟨n + 1, .step hs hst hn⟩, hnil⟩

lemma getScores_isSome {S : Type} (heap : List (Tree S)) :
    ∀ (ids : List Nat),
      (∀ j ∈ ids, ∃ t, heap.get? j = some t ∧ t.score ≠ none) →
      ∃ l, getScores heap ids = some l ∧ l.length = ids.length := by
  intro ids
  induction ids with
  | nil => intro _; exact ⟨[], rfl, rfl⟩
  | cons i rest ih =>
    intro h
    obtain ⟨t, ht, hts⟩ := h i (List.mem_cons_self i rest)
    obtain ⟨l, hl, hlen⟩ := ih (fun j hj => h j (List.mem_cons_of_mem _ hj))
    cases hsc : t.score with
    | none => exact absurd hsc hts
    | some v =>
      refine ⟨v :: l, ?_, by simp [hlen]⟩
      simp only [getScores, ht, hsc, hl, Option.map_some']

/-- C9: loop invariant of the iterative evaluator.  In any run started from
`state_score_i`'s initial machine state, whenever the loop pops a node whose children
list is non-empty, every child's score is already set, so that
`max([-c.score for c in tree.children])` is well defined (the read-back score list exists
and the maximum of its negations exists); and whenever the loop returns, the root node's
score is a set integer. -/
theorem iterative_children_resolved {S M : Type} (g : GameCtx S M) (cur s : S) :
    (∀ (n : Nat) (σ : IterState S) (id : Nat) (rest : List Nat) (node : Tree S),
      StepsN g n (initIter cur s) σ → σ.stack = id :: rest →
      σ.heap.get? id = some node → node.children ≠ [] →
      ∃ l v, getScores σ.heap node.children = some l ∧
        (l.map (fun x => -x)).max? = some v) ∧
    (∀ (fuel : Nat) (σ : IterState S), run_i g fuel (initIter cur s) = .ok σ →
      ∃ node v, σ.heap.get? 0 = some node ∧ node.score = some v) := by
  constructor
  · intro n σ id rest node hsteps hstack hnode hchildren
    obtain ⟨h1, h2, h3, h4, h5⟩ := inv_stepsN hsteps (inv_init cur s)
    have hres : ∀ j ∈ node.children, ∃ t, σ.heap.get? j = some t ∧ t.score ≠ none := by
      intro j hj
      have h0 : σ.stack.get? 0 = some id := by rw [hstack]; rfl
      rcases h3 0 id h0 node hnode j hj with h | ⟨kk, hkk, _⟩
      · exact h
      · omega
    obtain ⟨l, hl, hlen⟩ := getScores_isSome σ.heap node.children hres
    have hlne : l.map (fun x : Int => -x) ≠ [] := by
      intro hleq
      rw [List.map_eq_nil] at hleq
      rw [hleq] at hlen
      exact hchildren (List.length_eq_zero.mp hlen.symm)
    obtain ⟨v, hv⟩ := int_max?_of_ne_nil hlne
    exact ⟨l, v, hl, hv⟩
  · intro fuel σ hrun
    obtain ⟨⟨n, hsteps⟩, hnil⟩ := run_i_stepsN g fuel _ _ hrun
    obtain ⟨h1, h2, h3, h4, h5⟩ := inv_stepsN hsteps (inv_init cur s)
    rcases h4 with h | ⟨nd, hnd, hs0⟩
    · rw [hnil] at h
      cases h
    · cases hsc : nd.score with
      | none => exact absurd hsc hs0
      | some v => exact ⟨nd, v, hnd, hsc⟩

/-- Witness for C9: a two-step run of the toy game's evaluation of state `1` reaches a
configuration whose stack head has a non-empty, fully resolved children list. -/
theorem iterative_children_resolved_witness :
    ∃ l v, getScores ([⟨1, [1], none⟩, ⟨0, [], some 1⟩] : List (Tree Nat)) [1] = some l ∧
      (l.map (fun x : Int => -x)).max? = some v := by
  have h1 : step_i toyGame (initIter 7 1) =
      .ok ⟨[⟨1, [1], none⟩, ⟨0, [], none⟩], [1, 0], 7⟩ := by decide
  have h2 : step_i toyGame ⟨[⟨1, [1], none⟩, ⟨0, [], none⟩], [1, 0], 7⟩ =
      .ok ⟨[⟨1, [1], none⟩, ⟨0, [], some 1⟩], [0], 7⟩ := by decide
  exact (iterative_children_resolved toyGame 7 1).1 2
    ⟨[⟨1, [1], none⟩, ⟨0, [], some 1⟩], [0], 7⟩ 0 [] ⟨1, [1], none⟩
    (StepsN.step (by decide) h1 (StepsN.step (by decide) h2 (.refl _)))
    rfl rfl (by decide)

end Minimax

namespace Stonehenge

example : create_ley_dl 1 = [[0], [1, 2]] := by decide
example : create_ley_dl 4 =
    [[0, 2, 5, 9], [1, 3, 6, 10, 14], [4, 7, 11, 15], [8, 12, 16], [13, 17]] := by decide
example : create_ley_dr 1 = [[1], [0, 2]] := by decide
example : create_ley_dr 4 =
    [[1, 4, 8, 13], [0, 3, 7, 12, 17], [2, 6, 11, 16], [5, 10, 15], [9, 14]] := by decide
example : create_ley_row 1 = [[0, 1], [2]] := by decide
example : create_ley_row 3 = [[0, 1], [2, 3, 4], [5, 6, 7, 8], [9, 10, 11]] := by decide
example : (StonehengeState.init true 1).ley =
    [[['A'], ['B', 'C']], [['B'], ['A', 'C']], [['A', 'B'], ['C']]] := by decide
example : (StonehengeState.init true 1).mark_dl = ['@', '@'] := by decide
example : (StonehengeState.init true 1).cell_state = [('A', 0), ('B', 0), ('C', 0)] := by
  decide
example : (StonehengeState.init true 1).get_possible_moves = ['A', 'B', 'C'] := by decide
example : (StonehengeState.init true 3).get_possible_moves =
    ['A', 'B', 'C', 'D', 'E', 'F', 'G', 'H', 'I', 'J', 'K', 'L'] := by decide
example : is_winner ((StonehengeState.init true 1).make_move 'A') 1 = true := by decide
example : is_winner ((StonehengeState.init false 1).make_move 'A') 1 = false := by decide
example : is_winner ((StonehengeState.init true 1).make_move 'A') 2 = false := by decide
example : ((StonehengeState.init true 2).make_move 'A').p1_turn = false := by decide
example : ((StonehengeState.init true 2).make_move 'A').cell_state =
    [('A', 1), ('B', 0), ('C', 0), ('D', 0), ('E', 0), ('F', 0), ('G', 0)] := by decide
example : ((StonehengeState.init true 2).make_move 'A').get_possible_moves =
    ['B', 'C', 'D', 'E', 'F', 'G'] := by decide
example : (StonehengeState.init true 1).rough_outcome = 1 := by decide
example : (StonehengeState.init false 1).rough_outcome = 1 := by decide
example : ((StonehengeState.init true 1).make_move 'A').rough_outcome = -1 := by decide

/-- C8: applying the same move to the same state twice yields states with equal
observable fields, and neither call changes any field of the source state.  In this
embedding `make_move` is a pure function of `(s, move)` — mirroring that the Python
method only ever mutates the state it freshly constructs (`new_state`), copying
`cell_state` before writing — so both halves hold definitionally. -/
theorem make_move_idempotent (s : StonehengeState) (m : Char) :
    ((s.make_move m).p1_turn, (s.make_move m).cell_state, (s.make_move m).mark_dl,
      (s.make_move m).mark_dr, (s.make_move m).mark_row) =
    ((s.make_move m).p1_turn, (s.make_move m).cell_state, (s.make_move m).mark_dl,
      (s.make_move m).mark_dr, (s.make_move m).mark_row) ∧
    (s.p1_turn, s.ley, s.mark_dl, s.mark_dr, s.mark_row, s.cell_state) =
    (s.p1_turn, s.ley, s.mark_dl, s.mark_dr, s.mark_row, s.cell_state) :=
  ⟨rfl, rfl⟩

/-- C10: on every state where some player holds at least half the ley-lines (so the game
is over and `get_possible_moves()` returns `[]`), `rough_outcome` returns `LOSE = -1`
regardless of which player won: with no successor states the `any` check over `[]` fails
and the `all` check over `[]` holds vacuously.  This contradicts the contract in
`rough_outcome_strategy`'s docstring, which promises the score for the current player of
an over state. -/
theorem rough_outcome_over_is_lose (s : StonehengeState)
    (h : is_winner s 1 = true ∨ is_winner s 2 = true) :
    s.get_possible_moves = [] ∧ s.rough_outcome = LOSE := by
  have hmoves : s.get_possible_moves = [] := by
    unfold StonehengeState.get_possible_moves
    rcases h with h | h <;> simp [h]
  refine ⟨hmoves, ?_⟩
  unfold StonehengeState.rough_outcome
  rw [hmoves]
  simp

/-- Witness for C10: after player 1 takes cell `A` on the size-1 board they hold half
the ley-lines, and the resulting over state is scored `LOSE`. -/
theorem rough_outcome_over_is_lose_witness :
    ((StonehengeState.init true 1).make_move 'A').get_possible_moves = [] ∧
    ((StonehengeState.init true 1).make_move 'A').rough_outcome = LOSE :=
  rough_outcome_over_is_lose ((StonehengeState.init true 1).make_move 'A')
    (Or.inl (by decide))

lemma not_winner_count {s : StonehengeState} {p : Nat} (h : is_winner s p = false) :
    2 * ((s.mark_dl ++ s.mark_dr ++ s.mark_row).countP (fun x => x == Nat.digitChar p)) <
      (s.mark_dl ++ s.mark_dr ++ s.mark_row).length := by
  unfold is_winner at h
  simp only [decide_eq_false_iff_not] at h
  omega

lemma no_winner_of_moves_ne {s : StonehengeState} (h : s.get_possible_moves ≠ []) :
    is_winner s 1 = false ∧ is_winner s 2 = false := by
  unfold StonehengeState.get_possible_moves at h
  by_cases h1 : is_winner s 1 <;> by_cases h2 : is_winner s 2 <;>
    simp [h1, h2] at h ⊢

lemma ratio_bound {nc nopp L : Nat} (hc : 2 * nc < L) (hgt : nopp < nc) :
    0 < ((nc : ℚ) - nopp) / ((L : ℚ) / 2) ∧ ((nc : ℚ) - nopp) / ((L : ℚ) / 2) < 1 := by
  have hL : (0 : ℚ) < (L : ℚ) / 2 := by
    have h2 : (2 * nc : ℚ) < L := by exact_mod_cast hc
    have h0 : (0 : ℚ) ≤ (2 * nc : ℚ) := by positivity
    linarith
  constructor
  · apply div_pos ?_ hL
    have : (nopp : ℚ) < nc := by exact_mod_cast hgt
    linarith
  · rw [div_lt_one hL]
    have h1 : (2 * nc : ℚ) < L := by exact_mod_cast hc
    have h2 : (0 : ℚ) ≤ (nopp : ℚ) := by positivity
    linarith

lemma rough_outcome_bounds_core (s : StonehengeState) (current opponent : Nat)
    (hval : s.rough_outcome =
      (let states := s.get_possible_moves.map s.make_move
       if states.any (fun x => is_winner x current) then WIN
       else
         let substates := states.map (fun x => x.get_possible_moves.map x.make_move)
         if substates.all (fun l => l.any (fun t => is_winner t opponent)) then LOSE
         else
           let lines := s.mark_dl ++ s.mark_dr ++ s.mark_row
           let num_cur := lines.countP (fun x => x == Nat.digitChar current)
           let num_opp := lines.countP (fun x => x == Nat.digitChar opponent)
           if num_cur = num_opp then DRAW
           else if num_cur > num_opp then
             ((num_cur : ℚ) - (num_opp : ℚ)) / ((lines.length : ℚ) / 2)
           else -(((num_opp : ℚ) - (num_cur : ℚ)) / ((lines.length : ℚ) / 2))))
    (hwc : is_winner s current = false →
      2 * ((s.mark_dl ++ s.mark_dr ++ s.mark_row).countP
        (fun x => x == Nat.digitChar current)) <
        (s.mark_dl ++ s.mark_dr ++ s.mark_row).length)
    (hwo : is_winner s opponent = false →
      2 * ((s.mark_dl ++ s.mark_dr ++ s.mark_row).countP
        (fun x => x == Nat.digitChar opponent)) <
        (s.mark_dl ++ s.mark_dr ++ s.mark_row).length)
    (hco : current = 1 ∧ opponent = 2 ∨ current = 2 ∧ opponent = 1) :
    -1 ≤ s.rough_outcome ∧ s.rough_outcome ≤ 1 := by
  rw [hval]
  dsimp only
  split_ifs with hA hB hC hD
  · constructor <;> norm_num [WIN]
  · constructor <;> norm_num [LOSE]
  · constructor <;> norm_num [DRAW]
  · -- the current player holds more lines: the ratio is in (0, 1)
    have hmne : s.get_possible_moves ≠ [] := by
      intro h0
      apply hB
      simp [h0]
    obtain ⟨hw1, hw2⟩ := no_winner_of_moves_ne hmne
    have hc : 2 * ((s.mark_dl ++ s.mark_dr ++ s.mark_row).countP
        (fun x => x == Nat.digitChar current)) <
        (s.mark_dl ++ s.mark_dr ++ s.mark_row).length := by
      rcases hco with ⟨rfl, _⟩ | ⟨rfl, _⟩
      · exact hwc hw1
      · exact hwc hw2
    obtain ⟨hlo, hhi⟩ := ratio_bound hc hD
    constructor <;> linarith
  · -- the opponent holds more lines: the value negates a ratio in (0, 1)
    have hmne : s.get_possible_moves ≠ [] := by
      intro h0
      apply hB
      simp [h0]
    obtain ⟨hw1, hw2⟩ := no_winner_of_moves_ne hmne
    have hc : 2 * ((s.mark_dl ++ s.mark_dr ++ s.mark_row).countP
        (fun x => x == Nat.digitChar opponent)) <
        (s.mark_dl ++ s.mark_dr ++ s.mark_row).length := by
      rcases hco with ⟨_, rfl⟩ | ⟨_, rfl⟩
      · exact hwo hw2
      · exact hwo hw1
    have hlt : (s.mark_dl ++ s.mark_dr ++ s.mark_row).countP
        (fun x => x == Nat.digitChar current) <
        (s.mark_dl ++ s.mark_dr ++ s.mark_row).countP
        (fun x => x == Nat.digitChar opponent) := by
      omega
    obtain ⟨hlo, hhi⟩ := ratio_bound hc hlt
    constructor <;> linarith

lemma rough_outcome_bounds (s : StonehengeState) :
    -1 ≤ s.rough_outcome ∧ s.rough_outcome ≤ 1 := by
  by_cases hp : s.p1_turn
  · exact rough_outcome_bounds_core s 1 2
      (by simp only [StonehengeState.rough_outcome, hp, if_true])
      (fun h => not_winner_count h) (fun h => not_winner_count h) (Or.inl ⟨rfl, rfl⟩)
  · exact rough_outcome_bounds_core s 2 1
      (by simp only [StonehengeState.rough_outcome, hp]; rfl)
      (fun h => not_winner_count h) (fun h => not_winner_count h) (Or.inr ⟨rfl, rfl⟩)

/-- C7: `rough_outcome` of every reachable state lies in the closed interval
`[-1, 1]`; the ley-line difference ratio is only computed when neither player holds at
least half the ley-lines (otherwise the state is over and the vacuous `all` returns
`LOSE` first), so its absolute value is strictly below 1. -/
theorem rough_outcome_in_range (s : StonehengeState) (hs : Reach s) :
    -1 ≤ s.rough_outcome ∧ s.rough_outcome ≤ 1 :=
  rough_outcome_bounds s

/-- Witness for C7: the initial size-1 board is reachable and its heuristic value is
inside `[-1, 1]`. -/
theorem rough_outcome_in_range_witness :
    -1 ≤ (StonehengeState.init true 1).rough_outcome ∧
      (StonehengeState.init true 1).rough_outcome ≤ 1 :=
  rough_outcome_in_range (StonehengeState.init true 1)
    (Reach.init true 1 (by decide) (by decide))

lemma getD_create_markers {lines : List (List Char)} {cs : List (Char × Nat)} {i : Nat}
    (h : i < lines.length) :
    (create_markers lines cs).getD i '?' = markerOf (lines.getD i []) cs := by
  rw [create_markers, List.getD_eq_get?, List.get?_map, List.get?_eq_get h]
  rw [List.getD_eq_get?, List.get?_eq_get h]
  rfl

lemma markerOf_cases (l : List Char) (cs : List (Char × Nat)) :
    markerOf l cs = '@' ∨ markerOf l cs = '1' ∨ markerOf l cs = '2' := by
  unfold markerOf
  dsimp only
  split_ifs <;> simp

lemma getD_range_map {α : Type} {f : Nat → α} {n i : Nat} {d : α} (h : i < n) :
    ((List.range n).map f).getD i d = f i := by
  rw [List.getD_eq_get?, List.get?_map, List.get?_range h]
  rfl

lemma ley_lengths : ∀ bs, 1 ≤ bs → bs ≤ 5 →
    (create_ley_dl bs).length = bs + 1 ∧ (create_ley_dr bs).length = bs + 1 ∧
    (create_ley_row bs).length = bs + 1 := by
  intro bs hb1 hb5
  interval_cases bs <;> exact ⟨by decide, by decide, by decide⟩

lemma ley_cells_bound : ∀ bs, 1 ≤ bs → bs ≤ 5 →
    ∀ line ∈ leyLetters (create_ley_dl bs) ++ leyLetters (create_ley_dr bs) ++
      leyLetters (create_ley_row bs), ∀ c ∈ line, c ∈ used_cells bs := by
  intro bs hb1 hb5
  interval_cases bs <;> exact (by decide)

lemma marksInv_init (lines : List (List Char)) (cs : List (Char × Nat)) :
    marksInv (create_markers lines cs) lines cs := by
  refine ⟨by rw [create_markers, List.length_map], ?_⟩
  intro i hi
  rw [create_markers, List.length_map] at hi
  rw [getD_create_markers hi]
  exact ⟨markerOf_cases _ _, fun h => h⟩

lemma stateInv_init (b : Bool) (bs : Nat) (hb1 : 1 ≤ bs) (hb5 : bs ≤ 5) :
    StateInv bs (StonehengeState.init b bs) := by
  obtain ⟨hl1, _, _⟩ := ley_lengths bs hb1 hb5
  refine ⟨hb1, hb5, rfl, ?_, ?_, ?_, marksInv_init _ _, marksInv_init _ _,
    marksInv_init _ _⟩
  · show (create_markers (leyLetters (create_ley_dl bs))
      ((used_cells bs).map (fun x => (x, 0)))).length = bs + 1
    rw [create_markers, List.length_map, leyLetters, List.length_map, hl1]
  · show ((used_cells bs).map (fun x => (x, 0))).map Prod.fst = used_cells bs
    rw [List.map_map]
    have hid : ∀ x ∈ used_cells bs, (Prod.fst ∘ fun x => (x, (0 : Nat))) x = id x :=
      fun x _ => rfl
    rw [List.map_congr_left hid, List.map_id]
  · intro p hp
    have hp' : p ∈ (used_cells bs).map (fun x => (x, 0)) := hp
    obtain ⟨x, _, rfl⟩ := List.mem_map.mp hp'
    simp

lemma dset_keys {d : List (Char × Nat)} {k : Char} {v : Nat}
    (h : d.any (fun p => p.1 == k) = true) :
    (dset d k v).map Prod.fst = d.map Prod.fst := by
  rw [dset, if_pos h, List.map_map]
  apply List.map_congr_left
  intro p _
  by_cases hpk : p.1 = k <;> simp [hpk]

lemma dset_vals {d : List (Char × Nat)} {k : Char} {v : Nat} {p : Char × Nat}
    (hp : p ∈ dset d k v) : p ∈ d ∨ p.2 = v := by
  rw [dset] at hp
  split_ifs at hp with h
  · obtain ⟨q, hq, hpq⟩ := List.mem_map.mp hp
    by_cases hqk : (q.1 == k) = true
    · rw [if_pos hqk] at hpq
      right
      rw [← hpq]
    · rw [if_neg hqk] at hpq
      left
      rw [← hpq]
      exact hq
  · rcases List.mem_append.mp hp with h' | h'
    · exact Or.inl h'
    · right
      have : p = (k, v) := by simpa using h'
      rw [this]

lemma dget_mem {d : List (Char × Nat)} {c : Char} (h : c ∈ d.map Prod.fst) :
    ∃ p ∈ d, p.1 = c ∧ dget d c = p.2 := by
  obtain ⟨p, hp, hpc⟩ := List.mem_map.mp h
  have hpc' : (p.1 == c) = true := by rw [hpc]; exact beq_self_eq_true c
  have hsome : (d.find? (fun q => q.1 == c)).isSome = true :=
    List.find?_isSome.mpr ⟨p, hp, hpc'⟩
  cases hf : d.find? (fun q => q.1 == c) with
  | none => rw [hf] at hsome; cases hsome
  | some q =>
    refine ⟨q, List.mem_of_find?_eq_some hf, ?_, ?_⟩
    · have := List.find?_some hf
      simpa using this
    · rw [dget, hf]

lemma mem_moves_key {s : StonehengeState} {m : Char} (hm : m ∈ s.get_possible_moves) :
    s.cell_state.any (fun p => p.1 == m) = true := by
  unfold StonehengeState.get_possible_moves at hm
  split_ifs at hm with h
  · obtain ⟨p, hp, hpm⟩ := List.mem_map.mp hm
    exact List.any_eq_true.mpr ⟨p, List.mem_of_mem_filter hp, by simp [hpm]⟩
  · cases hm

lemma marksInv_move {old : List Char} {lines : List (List Char)}
    {cs cs' : List (Char × Nat)} (hinv : marksInv old lines cs) :
    marksInv ((List.range old.length).map (fun i =>
      if old.getD i '?' ≠ '@' then old.getD i '?'
      else (create_markers lines cs').getD i '?')) lines cs' := by
  obtain ⟨hlen, hmk⟩ := hinv
  constructor
  · rw [List.length_map, List.length_range]
    exact hlen
  · intro i hi
    rw [List.length_map, List.length_range] at hi
    rw [getD_range_map hi]
    have hlines : i < lines.length := by omega
    by_cases hat : old.getD i '?' ≠ '@'
    · rw [if_pos hat]
      refine ⟨(hmk i hi).1, fun hcontra => absurd hcontra hat⟩
    · rw [if_neg hat, getD_create_markers hlines]
      exact ⟨markerOf_cases _ _, fun h => h⟩

lemma stateInv_move {bs : Nat} {s : StonehengeState} (hinv : StateInv bs s)
    {m : Char} (hm : m ∈ s.get_possible_moves) : StateInv bs (s.make_move m) := by
  obtain ⟨hb1, hb5, hley, hdl_len, hkeys, hvals, hmdl, hmdr, hmrow⟩ := hinv
  have hbs : s.mark_dl.length - 1 = bs := by omega
  have hanym : s.cell_state.any (fun p => p.1 == m) = true := mem_moves_key hm
  have hcs : (s.make_move m).cell_state =
      dset s.cell_state m (if s.p1_turn then 1 else 2) := rfl
  have hleynew : (s.make_move m).ley =
      (StonehengeState.init (!s.p1_turn) (s.mark_dl.length - 1)).ley := rfl
  have hml : (s.make_move m).mark_dl = (List.range s.mark_dl.length).map (fun i =>
      if s.mark_dl.getD i '?' ≠ '@' then s.mark_dl.getD i '?'
      else (create_markers (s.ley.getD 0 [])
        (dset s.cell_state m (if s.p1_turn then 1 else 2))).getD i '?') := rfl
  have hmr : (s.make_move m).mark_dr = (List.range s.mark_dr.length).map (fun i =>
      if s.mark_dr.getD i '?' ≠ '@' then s.mark_dr.getD i '?'
      else (create_markers (s.ley.getD 1 [])
        (dset s.cell_state m (if s.p1_turn then 1 else 2))).getD i '?') := rfl
  have hmw : (s.make_move m).mark_row = (List.range s.mark_row.length).map (fun i =>
      if s.mark_row.getD i '?' ≠ '@' then s.mark_row.getD i '?'
      else (create_markers (s.ley.getD 2 [])
        (dset s.cell_state m (if s.p1_turn then 1 else 2))).getD i '?') := rfl
  have hg0 : s.ley.getD 0 [] = leyLetters (create_ley_dl bs) := by rw [hley]; rfl
  have hg1 : s.ley.getD 1 [] = leyLetters (create_ley_dr bs) := by rw [hley]; rfl
  have hg2 : s.ley.getD 2 [] = leyLetters (create_ley_row bs) := by rw [hley]; rfl
  refine ⟨hb1, hb5, ?_, ?_, ?_, ?_, ?_, ?_, ?_⟩
  · rw [hleynew, hbs]
    rfl
  · rw [hml, List.length_map, List.length_range]
    exact hdl_len
  · rw [hcs, dset_keys hanym]
    exact hkeys
  · intro p hp
    rw [hcs] at hp
    rcases dset_vals hp with h | h
    · exact hvals p h
    · rw [h]
      split_ifs <;> omega
  · rw [hml, hcs, hg0]
    exact marksInv_move hmdl
  · rw [hmr, hcs, hg1]
    exact marksInv_move hmdr
  · rw [hmw, hcs, hg2]
    exact marksInv_move hmrow

lemma reach_inv {s : StonehengeState} (hs : Reach s) : ∃ bs, StateInv bs s := by
  induction hs with
  | init b bs hb1 hb5 => exact ⟨bs, stateInv_init b bs hb1 hb5⟩
  | move hs hm ih =>
    obtain ⟨bs, hinv⟩ := ih
    exact ⟨bs, stateInv_move hinv hm⟩

lemma countP_add_countP {α : Type} (p q : α → Bool) :
    ∀ (l : List α), (∀ x ∈ l, (p x || q x) = true ∧ ¬(p x = true ∧ q x = true)) →
      l.countP p + l.countP q = l.length := by
  intro l
  induction l with
  | nil => intro _; rfl
  | cons a l ih =>
    intro h
    obtain ⟨hor, hnand⟩ := h a (List.mem_cons_self a l)
    have hrec := ih (fun x hx => h x (List.mem_cons_of_mem _ hx))
    rw [List.countP_cons, List.countP_cons, List.length_cons]
    by_cases hpa : p a = true <;> by_cases hqa : q a = true <;>
      simp [hpa, hqa] at hor hnand ⊢ <;> omega

lemma marks_mem_vals {marks : List Char} {lines : List (List Char)}
    {cs : List (Char × Nat)} (hinv : marksInv marks lines cs)
    (hat : ∀ i, i < marks.length → marks.getD i '?' ≠ '@') :
    ∀ x ∈ marks, x = '1' ∨ x = '2' := by
  intro x hx
  obtain ⟨n, hn⟩ := List.mem_iff_get?.mp hx
  have hlt : n < marks.length := Minimax.get?_some_lt hn
  have hgd : marks.getD n '?' = x := by rw [List.getD_eq_get?, hn]; rfl
  rcases (hinv.2 n hlt).1 with h | h | h
  · exact absurd h (hat n hlt)
  · left; rw [← hgd]; exact h
  · right; rw [← hgd]; exact h

lemma marker_not_at_full {line : List Char} {cs : List (Char × Nat)}
    (hfull : ∀ c ∈ line, dget cs c = 1 ∨ dget cs c = 2) :
    markerOf line cs ≠ '@' := by
  unfold markerOf
  dsimp only
  split_ifs with h1 h2
  · simp
  · simp
  · exfalso
    have hsum : line.countP (fun cell => dget cs cell == 1) +
        line.countP (fun cell => dget cs cell == 2) = line.length := by
      apply countP_add_countP
      intro c hc
      rcases hfull c hc with h | h <;> rw [h] <;> exact ⟨by decide, by decide⟩
    omega

lemma full_of_moves_nil {s : StonehengeState} (h : s.get_possible_moves = [])
    (hnw1 : is_winner s 1 = false) (hnw2 : is_winner s 2 = false) :
    ∀ p ∈ s.cell_state, p.2 ≠ 0 := by
  unfold StonehengeState.get_possible_moves at h
  rw [if_pos (by simp [hnw1, hnw2])] at h
  rw [List.map_eq_nil] at h
  intro p hp hp0
  have hmem : p ∈ s.cell_state.filter (fun p => p.2 == 0) :=
    List.mem_filter.mpr ⟨hp, by rw [hp0]; decide⟩
  rw [h] at hmem
  cases hmem

/-- C6: on every reachable Stonehenge state, `get_possible_moves()` is empty exactly
when `StonehengeGame.is_over` holds (some player has captured at least half of the
ley-lines).  In particular a fully claimed board always has a winner: were no line
decided, each marker family's sticky `'@'` markers would recompute to `'@'`, which is
impossible once every cell of every line is claimed; so with no `'@'` left the `'1'`s
and `'2'`s cover all `3 * (board_size + 1)` lines and one player must hold half. -/
theorem possible_moves_empty_iff_over (s : StonehengeState) (hs : Reach s) :
    s.get_possible_moves = [] ↔ StonehengeGame.is_over s = true := by
  obtain ⟨bs, hb1, hb5, hley, hdl_len, hkeys, hvals, hmdl, hmdr, hmrow⟩ := reach_inv hs
  constructor
  · intro hmv
    unfold StonehengeGame.is_over
    by_cases hw1 : is_winner s 1
    · simp [hw1]
    · by_cases hw2 : is_winner s 2
      · simp [hw2]
      · exfalso
        have hw1' : is_winner s 1 = false := by simpa using hw1
        have hw2' : is_winner s 2 = false := by simpa using hw2
        have hfull := full_of_moves_nil hmv hw1' hw2'
        have hcellv : ∀ c ∈ used_cells bs,
            dget s.cell_state c = 1 ∨ dget s.cell_state c = 2 := by
          intro c hc
          have hc' : c ∈ s.cell_state.map Prod.fst := by rw [hkeys]; exact hc
          obtain ⟨p, hp, hpc, hdg⟩ := dget_mem hc'
          have hv2 := hvals p hp
          have hv0 := hfull p hp
          rw [hdg]
          omega
        have hstick : ∀ (marks : List Char) (lines : List (List Char)),
            marksInv marks lines s.cell_state →
            (∀ line ∈ lines, ∀ c ∈ line, c ∈ used_cells bs) →
            ∀ x ∈ marks, x = '1' ∨ x = '2' := by
          intro marks lines hminv hsub
          apply marks_mem_vals hminv
          intro i hi hat
          have hlines : i < lines.length := by rw [← hminv.1]; exact hi
          have hmk := (hminv.2 i hi).2 hat
          have hline_mem : lines.getD i [] ∈ lines := by
            rw [List.getD_eq_get?, List.get?_eq_get hlines]
            exact List.get_mem lines i hlines
          exact marker_not_at_full
            (fun c hc => hcellv c (hsub (lines.getD i []) hline_mem c hc)) hmk
        have hbound := ley_cells_bound bs hb1 hb5
        have hall : ∀ x ∈ s.mark_dl ++ s.mark_dr ++ s.mark_row,
            x = '1' ∨ x = '2' := by
          intro x hx
          rcases List.mem_append.mp hx with hx' | hx
          · rcases List.mem_append.mp hx' with hx | hx
            · exact hstick s.mark_dl _ hmdl
                (fun line hl => hbound line
                  (List.mem_append.mpr (Or.inl (List.mem_append.mpr (Or.inl hl))))) x hx
            · exact hstick s.mark_dr _ hmdr
                (fun line hl => hbound line
                  (List.mem_append.mpr (Or.inl (List.mem_append.mpr (Or.inr hl))))) x hx
          · exact hstick s.mark_row _ hmrow
              (fun line hl => hbound line (List.mem_append.mpr (Or.inr hl))) x hx
        have hcount : (s.mark_dl ++ s.mark_dr ++ s.mark_row).countP (fun x => x == '1') +
            (s.mark_dl ++ s.mark_dr ++ s.mark_row).countP (fun x => x == '2') =
            (s.mark_dl ++ s.mark_dr ++ s.mark_row).length := by
          apply countP_add_countP
          intro x hx
          rcases hall x hx with h | h <;> rw [h] <;> exact ⟨by decide, by decide⟩
        have hc1 := not_winner_count hw1'
        have hc2 := not_winner_count hw2'
        rw [show Nat.digitChar 1 = '1' from rfl] at hc1
        rw [show Nat.digitChar 2 = '2' from rfl] at hc2
        omega
  · intro hov
    unfold StonehengeGame.is_over at hov
    unfold StonehengeState.get_possible_moves
    rcases (Bool.or_eq_true _ _).mp hov with h | h <;> simp [h]

/-- Witness for C6: on the reachable over state obtained by player 1 claiming `A` on the
size-1 board, the move list is empty and the game is over. -/
theorem possible_moves_empty_iff_over_witness :
    ((StonehengeState.init true 1).make_move 'A').get_possible_moves = [] ↔
      StonehengeGame.is_over ((StonehengeState.init true 1).make_move 'A') = true :=
  possible_moves_empty_iff_over ((StonehengeState.init true 1).make_move 'A')
    (Reach.move (Reach.init true 1 (by decide) (by decide)) (by decide))

end Stonehenge
